import Mathlib

/-!
Verification of the bitset engine in src/core/bitfield.h (struct Bitfield and
namespace bitfield).  The storage is modelled as a list of 64-bit words
(Nat values; well-formed blocks are < 2^64), seen through a possibly-null
pointer.  Machine arithmetic is Nat with explicit reductions modulo 2^64
wherever a C uint64 computation can wrap; out-of-range word reads are
modelled as reading 0 and out-of-range word writes as having no effect.
Bit indices and counts (int64 in the source, always non-negative at every
call site) are modelled as Nat.  The uint32 view used by
number_of_bits_set follows the little-endian layout the source assumes.
Functions that mutate the pointee in C return the updated Bitfield here.
-/

/-- Model of struct Bitfield: ptr models the owned storage pointer
(none = nullptr) and count the logical bit count. -/
structure Bitfield where
  ptr : Option (List Nat)
  count : Nat
deriving Repr, DecidableEq

namespace Bitfield

/-- The storage words seen through the pointer; a null pointer reads as no words. -/
def blocks (f : Bitfield) : List Nat := f.ptr.getD []

/-- size_in_bytes from the source: (count + 8 - 1) / 8, round-up integer division. -/
def size_in_bytes (f : Bitfield) : Nat := (f.count + 8 - 1) / 8

/-- Bitfield::empty from the source: returns count > 0 (verbatim). -/
def empty (f : Bitfield) : Bool := decide (0 < f.count)

/-- Bitfield::operator bool from the source: ptr != nullptr. -/
def toBool (f : Bitfield) : Bool := f.ptr.isSome

/-- Helper: apply a storage transformation through the pointer; a null
pointer stays null (the C code would dereference nullptr there). -/
def mapBlocks (f : Bitfield) (g : List Nat → List Nat) : Bitfield :=
  ⟨f.ptr.map g, f.count⟩

end Bitfield

namespace bitfield

namespace detail

/-- bits_per_block = sizeof(uint64) * 8. -/
def bits_per_block : Nat := 64

/-- detail::block_idx. -/
def block_idx (idx : Nat) : Nat := idx / bits_per_block

/-- detail::bit_pattern: 1 shifted left by (idx mod 64). -/
def bit_pattern (idx : Nat) : Nat := 1 <<< (idx % bits_per_block)

/-- detail::number_of_set_bits, the SWAR popcount, at uint64 semantics.
The input is reduced mod 2^64 (uint64 parameter).  The subtraction never
wraps because the subtrahend (i >>> 1) &&& mask is at most i; the two
intermediate additions cannot exceed 2^64 because their operands are
bounded by the masks 0x3333... and 0x0F0F...; the final multiplication
does wrap, hence the explicit mod 2^64 before the shift. -/
def number_of_set_bits (i0 : Nat) : Nat :=
  let i := i0 % 18446744073709551616
  let i1 := i - ((i >>> 1) &&& 0x5555555555555555)
  let i2 := (i1 &&& 0x3333333333333333) + ((i1 >>> 2) &&& 0x3333333333333333)
  let i3 := (i2 + (i2 >>> 4)) &&& 0x0F0F0F0F0F0F0F0F
  ((i3 * 0x0101010101010101) % 18446744073709551616) >>> 56

/-- detail::num_blocks: round size_in_bytes up to whole 64-bit words. -/
def num_blocks (f : Bitfield) : Nat := (f.size_in_bytes + 8 - 1) / 8

/-- Loop body of detail::bit_scan_forward: while ((mask & 1) == 0) shift
right and count.  Structural fuel of 64 covers every nonzero uint64 mask
(its lowest set bit is below 64), so the fuel never runs out on the
inputs the source feeds it. -/
def bsf_loop : Nat → Nat → Nat
  | 0, _ => 0
  | fuel + 1, mask => if mask % 2 = 0 then 1 + bsf_loop fuel (mask / 2) else 0

/-- detail::bit_scan_forward: -1 on zero, else the lowest set bit index. -/
def bit_scan_forward (mask : Nat) : Int :=
  if mask = 0 then -1 else ((bsf_loop 64 mask : Nat) : Int)

end detail

/-- uint64 bitwise complement (the ~ operator in the source). -/
def compl64 (x : Nat) : Nat := x ^^^ 0xFFFFFFFFFFFFFFFF

/-- Read storage word k (an out-of-range read is modelled as 0). -/
def blockGet (f : Bitfield) (k : Nat) : Nat := f.blocks.getD k 0

/-- bitfield::free: release and reset to the empty state when the pointer
is non-null; otherwise leave the object untouched (verbatim from the
source, which resets ptr and count only inside the if). -/
def free (f : Bitfield) : Bitfield :=
  match f.ptr with
  | some _ => ⟨none, 0⟩
  | none => f

/-- Modelled from the spec: ALIGNED_MALLOC is declared in core/common.h,
which is not under src.  Per the spec (section 4.1 of spec.md) the
allocation is ceil(count/8) bytes rounded up to 64-bit word granularity;
the 16-byte alignment has no content in this embedding.  A fresh
allocation is uninitialized, so g supplies arbitrary garbage words. -/
def alloc_blocks (bytes : Nat) (g : Nat → Nat) : List Nat :=
  (List.range ((bytes + 8 - 1) / 8)).map (fun k => g k % 18446744073709551616)

/-- memset(ptr, 0, n) at word granularity (little-endian): word k holds
bytes 8k..8k+7, so its low 8 * min 8 (n - 8k) bits are cleared. -/
def memset_zero_bytes (bl : List Nat) (n : Nat) : List Nat :=
  bl.mapIdx (fun k b => (b >>> min 64 (8 * (n - 8 * k))) <<< min 64 (8 * (n - 8 * k)))

/-- bitfield::init(field, num_bits): record the count, allocate
size_in_bytes bytes (rounded up to word granularity per the spec-modelled
allocator) and memset the size_in_bytes bytes to zero. -/
def init (count : Nat) (g : Nat → Nat) : Bitfield :=
  ⟨some (memset_zero_bytes (alloc_blocks ((count + 8 - 1) / 8) g) ((count + 8 - 1) / 8)), count⟩

/-- bitfield::get_bit. -/
def get_bit (f : Bitfield) (idx : Nat) : Bool :=
  (blockGet f (detail.block_idx idx) &&& detail.bit_pattern idx) != 0

/-- bitfield::set_bit. -/
def set_bit (f : Bitfield) (idx : Nat) : Bitfield :=
  f.mapBlocks (fun bl =>
    bl.set (detail.block_idx idx) (bl.getD (detail.block_idx idx) 0 ||| detail.bit_pattern idx))

/-- bitfield::clear_bit. -/
def clear_bit (f : Bitfield) (idx : Nat) : Bitfield :=
  f.mapBlocks (fun bl =>
    bl.set (detail.block_idx idx) (bl.getD (detail.block_idx idx) 0 &&& compl64 (detail.bit_pattern idx)))

/-- bitfield::invert_bit: field.ptr[blk] ^= pattern, and the returned bool
is the truth value of the assigned (new) block word. -/
def invert_bit (f : Bitfield) (idx : Nat) : Bitfield × Bool :=
  let k := detail.block_idx idx
  let nb := blockGet f k ^^^ detail.bit_pattern idx
  (f.mapBlocks (fun bl => bl.set k nb), nb != 0)

/-- memset over whole words: set words lo..lo+n-1 to v (used by set_range). -/
def memset_blocks (bl : List Nat) (lo n v : Nat) : List Nat :=
  (List.range n).foldl (fun acc t => acc.set (lo + t) v) bl

/-- bitfield::set_range over the half-open range beg..e. -/
def set_range (f : Bitfield) (beg e : Nat) : Bitfield :=
  let bb := detail.block_idx beg
  let eb := detail.block_idx e
  if bb = eb then
    f.mapBlocks (fun bl =>
      bl.set bb (bl.getD bb 0 ||| ((detail.bit_pattern beg - 1) ^^^ (detail.bit_pattern e - 1))))
  else
    f.mapBlocks (fun bl =>
      let bl1 := bl.set bb (bl.getD bb 0 ||| compl64 (detail.bit_pattern beg - 1))
      let bl2 := bl1.set eb (bl1.getD eb 0 ||| (detail.bit_pattern e - 1))
      memset_blocks bl2 (bb + 1) (eb - bb - 1) 0xFFFFFFFFFFFFFFFF)

/-- bitfield::any_bit_set_in_range.  The source scans the interior bytes
with a memcmp trick that decides exactly whether all of them are zero;
this is modelled by the short-circuit word scan. -/
def any_bit_set_in_range (f : Bitfield) (beg e : Nat) : Bool :=
  let bb := detail.block_idx beg
  let eb := detail.block_idx e
  if bb = eb then
    (blockGet f bb &&& ((detail.bit_pattern beg - 1) ^^^ (detail.bit_pattern e - 1))) != 0
  else if (blockGet f bb &&& compl64 (detail.bit_pattern beg - 1)) != 0 then true
  else if (blockGet f eb &&& (detail.bit_pattern e - 1)) != 0 then true
  else (List.range' (bb + 1) (eb - bb - 1)).any (fun k => blockGet f k != 0)

/-- bitfield::all_bits_set_in_range.  The interior memcmp trick decides
exactly whether all interior bytes are 0xFF, i.e. every interior word is
the all-ones word. -/
def all_bits_set_in_range (f : Bitfield) (beg e : Nat) : Bool :=
  let bb := detail.block_idx beg
  let eb := detail.block_idx e
  if bb = eb then
    (blockGet f bb &&& ((detail.bit_pattern beg - 1) ^^^ (detail.bit_pattern e - 1))) ==
      ((detail.bit_pattern beg - 1) ^^^ (detail.bit_pattern e - 1))
  else if (blockGet f bb &&& compl64 (detail.bit_pattern beg - 1)) != compl64 (detail.bit_pattern beg - 1) then false
  else if (blockGet f eb &&& (detail.bit_pattern e - 1)) != (detail.bit_pattern e - 1) then false
  else (List.range' (bb + 1) (eb - bb - 1)).all (fun k => blockGet f k == 0xFFFFFFFFFFFFFFFF)

/-- bitfield::any_bit_set (whole field), verbatim: single-block branch for
count < 64, otherwise a scan of the words strictly below end_blk_idx - 1
followed by the masked word at end_blk_idx. -/
def any_bit_set (f : Bitfield) : Bool :=
  let beg_blk_idx := detail.block_idx 0
  let end_blk_idx := detail.block_idx f.count
  if beg_blk_idx = end_blk_idx then
    (blockGet f beg_blk_idx &&& ((detail.bit_pattern 0 - 1) ^^^ (detail.bit_pattern f.count - 1))) != 0
  else
    ((List.range (end_blk_idx - 1)).any (fun i => blockGet f i != 0)) ||
      ((blockGet f end_blk_idx &&& (detail.bit_pattern f.count - 1)) != 0)

/-- Loop of bitfield::find_next_bit_set after the first (masked) block:
fuel counts the remaining iterations of the for-loop, which runs while
blk_idx < num_blocks - 1; at fuel 0 the final block is checked against
the count mask.  offset accumulates in steps of 64 exactly as in the
source (it is not realigned to the block base, faithfully preserved). -/
def fnbs_loop (f : Bitfield) : Nat → Nat → Nat → Int
  | 0, blk, off =>
    let mask := blockGet f blk &&& (detail.bit_pattern f.count - 1)
    if mask != 0 then (off : Int) + detail.bit_scan_forward mask else -1
  | fuel + 1, blk, off =>
    let mask := blockGet f blk
    if mask != 0 then (off : Int) + detail.bit_scan_forward mask
    else fnbs_loop f fuel (blk + 1) (off + 64)

/-- bitfield::find_next_bit_set, verbatim: note that the first-block hit
returns bit_scan_forward(mask) without adding the block base. -/
def find_next_bit_set (f : Bitfield) (offset : Nat) : Int :=
  if f.count ≤ offset then -1
  else
    let blk0 := offset / detail.bits_per_block
    let nb := detail.num_blocks f
    let mask := blockGet f blk0 &&& compl64 (detail.bit_pattern offset - 1)
    if mask != 0 then detail.bit_scan_forward mask
    else fnbs_loop f (nb - 1 - (blk0 + 1)) (blk0 + 1) (offset + 64)

/-- The common word-wise combinator loop shared verbatim by and_field,
and_not_field, or_field, or_not_field and xor_field: for every word index
below num_blocks(dst), store op(src_a word, src_b word) into dst. -/
def combine_blocks (dst a b : Bitfield) (op : Nat → Nat → Nat) : Bitfield :=
  dst.mapBlocks (fun bl =>
    (List.range (detail.num_blocks dst)).foldl
      (fun acc i => acc.set i (op (blockGet a i) (blockGet b i))) bl)

/-- bitfield::and_field. -/
def and_field (dst a b : Bitfield) : Bitfield :=
  combine_blocks dst a b (fun x y => x &&& y)

/-- bitfield::and_not_field. -/
def and_not_field (dst a b : Bitfield) : Bitfield :=
  combine_blocks dst a b (fun x y => x &&& compl64 y)

/-- bitfield::or_field. -/
def or_field (dst a b : Bitfield) : Bitfield :=
  combine_blocks dst a b (fun x y => x ||| y)

/-- bitfield::or_not_field. -/
def or_not_field (dst a b : Bitfield) : Bitfield :=
  combine_blocks dst a b (fun x y => x ||| compl64 y)

/-- bitfield::xor_field. -/
def xor_field (dst a b : Bitfield) : Bitfield :=
  combine_blocks dst a b (fun x y => x ^^^ y)

/-- bitfield::invert_all: word-wise complement over num_blocks words. -/
def invert_all (f : Bitfield) : Bitfield :=
  f.mapBlocks (fun bl =>
    (List.range (detail.num_blocks f)).foldl
      (fun acc i => acc.set i (compl64 (acc.getD i 0))) bl)

/-- The uint32 view of the storage used by number_of_bits_set: uint32
word j of a little-endian uint64 word array. -/
def read_u32 (f : Bitfield) (j : Nat) : Nat :=
  (blockGet f (j / 2) >>> (32 * (j % 2))) % 4294967296

/-- bitfield::number_of_bits_set: popcount of the count/32 full uint32
chunks plus the final chunk masked down to the remaining count % 32 bits. -/
def number_of_bits_set (f : Bitfield) : Nat :=
  let size := f.count / 32
  let rest := f.count % 32
  let full := ((List.range size).map (fun j => detail.number_of_set_bits (read_u32 f j))).sum
  if rest ≠ 0 then
    full + detail.number_of_set_bits (read_u32 f size &&& (detail.bit_pattern rest - 1))
  else full

/-- Inner loop of bitfield::extract_data_from_mask: once a nonzero word is
found the source iterates bit-by-bit from that word base to the end of
the whole mask, appending data at every set bit. -/
def extract_inner {α : Type} (d : Nat → α) (f : Bitfield) (i0 : Nat) : List α :=
  ((List.range' i0 (f.count - i0)).filter (fun i => get_bit f i)).map d

/-- Outer loop of bitfield::extract_data_from_mask: step over words,
skipping zero words; fuel bounds the iterations (the loop condition
64 * k < count fails no later than fuel = num_blocks runs out). -/
def extract_outer {α : Type} (d : Nat → α) (f : Bitfield) : Nat → Nat → List α
  | 0, _ => []
  | fuel + 1, k =>
    if 64 * k < f.count then
      if blockGet f k != 0 then extract_inner d f (64 * k)
      else extract_outer d f fuel (k + 1)
    else []

/-- bitfield::extract_data_from_mask: the returned list models the out
array prefix; its length is the returned count. -/
def extract_data_from_mask {α : Type} (d : Nat → α) (f : Bitfield) : List α :=
  extract_outer d f (detail.num_blocks f) 0

end bitfield

/-! Basic bridges between the source-level mask arithmetic and testBit. -/

namespace bitfield

theorem bit_pattern_eq (i : Nat) : detail.bit_pattern i = 2 ^ (i % 64) := by
  simp [detail.bit_pattern, detail.bits_per_block, Nat.shiftLeft_eq]

theorem and_two_pow_ne (x k : Nat) : ((x &&& 2 ^ k) != 0) = x.testBit k := by
  cases h : x.testBit k
  · have hz : x &&& 2 ^ k = 0 := by
      apply Nat.eq_of_testBit_eq
      intro j
      rw [Nat.testBit_and, Nat.testBit_two_pow, Nat.zero_testBit]
      by_cases hj : k = j
      · subst hj; simp [h]
      · simp [hj]
    simp [hz]
  · have hnz : x &&& 2 ^ k ≠ 0 := by
      intro hz
      have := congrArg (fun v => v.testBit k) hz
      simp [Nat.testBit_and, h, Nat.testBit_two_pow] at this
    simp [hnz]

theorem get_bit_eq_testBit (f : Bitfield) (i : Nat) :
    get_bit f i = (blockGet f (i / 64)).testBit (i % 64) := by
  rw [get_bit, bit_pattern_eq, detail.block_idx, detail.bits_per_block, and_two_pow_ne]

theorem compl64_testBit (x j : Nat) (hj : j < 64) :
    (compl64 x).testBit j = !(x.testBit j) := by
  rw [compl64]
  have : (0xFFFFFFFFFFFFFFFF : Nat) = 2 ^ 64 - 1 := by decide
  rw [this, Nat.testBit_xor, Nat.testBit_two_pow_sub_one]
  simp [hj]

theorem compl64_lt (x : Nat) (hx : x < 18446744073709551616) :
    compl64 x < 18446744073709551616 := by
  have : compl64 x < 2 ^ 64 := by
    rw [compl64]
    apply Nat.xor_lt_two_pow hx
    decide
  simpa using this

/-! Generic split lemmas for bitwise AND over a positional split. -/

theorem and_split (k p c d m : Nat) (hp : p = 2 ^ k) (hc : c < p) :
    (c + d * p) &&& m = (c &&& m % p) + (d &&& (m >>> k)) * p := by
  subst hp
  apply Nat.eq_of_testBit_eq
  intro j
  have hA : c &&& m % 2 ^ k < 2 ^ k :=
    Nat.and_lt_two_pow c (Nat.mod_lt _ (Nat.two_pow_pos k))
  rw [Nat.testBit_and, Nat.add_comm c, Nat.mul_comm d, Nat.testBit_mul_pow_two_add _ hc,
    Nat.add_comm (c &&& m % 2 ^ k), Nat.mul_comm (d &&& m >>> k),
    Nat.testBit_mul_pow_two_add _ hA]
  by_cases hj : j < k
  · simp [hj, Nat.testBit_and, Nat.testBit_mod_two_pow]
  · simp [hj, Nat.testBit_and, Nat.testBit_shiftRight,
      Nat.add_sub_cancel' (Nat.le_of_not_lt hj)]

theorem and_low (k p v m : Nat) (hp : p = 2 ^ k) (hv : v < p) :
    v &&& m = v &&& m % p := by
  have h := and_split k p v 0 m hp hv
  simpa using h

theorem and_mod_left (k p w m : Nat) (hp : p = 2 ^ k) (hm : m < p) :
    w &&& m = (w % p) &&& m := by
  have hsplit : w % p + w / p * p = w := Nat.mod_add_div' w p
  have hc : w % p < p := Nat.mod_lt _ (by subst hp; exact Nat.two_pow_pos k)
  have h := and_split k p (w % p) (w / p) m hp hc
  rw [hsplit] at h
  rw [h, Nat.mod_eq_of_lt hm]
  have hms : m >>> k = 0 := by
    subst hp
    rw [Nat.shiftRight_eq_div_pow]
    exact Nat.div_eq_of_lt hm
  simp [hms]

end bitfield

/-! Correctness of the SWAR popcount.  The three mask stages are proved on
single bytes by computation and lifted to 16 and 32 bits through split
lemmas at the byte-aligned split points. -/

namespace bitfield

set_option maxRecDepth 2000

/-- Stage 1 of number_of_set_bits. -/
def swar1 (x : Nat) : Nat := x - ((x >>> 1) &&& 0x5555555555555555)

/-- Stage 2 of number_of_set_bits. -/
def swar2 (x : Nat) : Nat := (x &&& 0x3333333333333333) + ((x >>> 2) &&& 0x3333333333333333)

/-- Stage 3 of number_of_set_bits. -/
def swar3 (x : Nat) : Nat := (x + (x >>> 4)) &&& 0x0F0F0F0F0F0F0F0F

/-- Reference count of the set bits among bits 0..w-1. -/
def bitsum : Nat → Nat → Nat
  | 0, _ => 0
  | w + 1, x => bitsum w x + (x >>> w) % 2

theorem number_of_set_bits_eq_swar (x : Nat) :
    detail.number_of_set_bits x
      = ((swar3 (swar2 (swar1 (x % 18446744073709551616))) * 0x0101010101010101)
          % 18446744073709551616) >>> 56 := rfl

theorem swar_byte : ∀ t < 256, swar3 (swar2 (swar1 t)) = bitsum 8 t := by decide

theorem swar_byte_bound : ∀ t < 256, swar2 (swar1 t) ≤ 0x44 ∧ swar2 (swar1 t) % 16 ≤ 4 := by
  decide

theorem swar1_le (x : Nat) : swar1 x ≤ x := Nat.sub_le _ _

theorem bitsum_le (w : Nat) : ∀ x, bitsum w x ≤ w := by
  induction w with
  | zero => intro x; simp [bitsum]
  | succ w ih =>
    intro x
    have h := ih x
    have h2 : (x >>> w) % 2 ≤ 1 := by omega
    simp only [bitsum]
    omega

theorem bitsum_term (x j : Nat) : (x >>> j) % 2 = (x.testBit j).toNat := by
  rw [Nat.testBit_to_div_mod, Nat.shiftRight_eq_div_pow]
  rcases Nat.mod_two_eq_zero_or_one (x / 2 ^ j) with h | h <;> simp [h]

theorem bitsum_eq_countP (w : Nat) : ∀ x, bitsum w x = (List.range w).countP (fun j => x.testBit j) := by
  induction w with
  | zero => intro x; simp [bitsum]
  | succ w ih =>
    intro x
    rw [List.range_succ, List.countP_append]
    simp only [bitsum, ih, List.countP_cons, List.countP_nil, bitsum_term]
    cases h : x.testBit w <;> simp [h]

theorem bitsum_congr (w x y : Nat) (h : ∀ j, j < w → x.testBit j = y.testBit j) :
    bitsum w x = bitsum w y := by
  rw [bitsum_eq_countP, bitsum_eq_countP]
  apply List.countP_congr
  intro j hj
  rw [List.mem_range] at hj
  rw [h j hj]

theorem bitsum_split (a b x : Nat) : bitsum (a + b) x = bitsum a x + bitsum b (x >>> a) := by
  induction b with
  | zero => simp [bitsum]
  | succ b ih =>
    have hs : x >>> (a + b) = (x >>> a) >>> b := Nat.shiftRight_add x a b
    show bitsum ((a + b) + 1) x = _
    simp only [bitsum, ih, hs]
    omega

end bitfield

namespace bitfield

theorem swar1_split8 (a b : Nat) (ha : a < 256) (hb : b < 256) :
    swar1 (a + b * 256) = swar1 a + swar1 b * 256 := by
  have h256 : (256 : Nat) = 2 ^ 8 := by norm_num
  have h128 : (128 : Nat) = 2 ^ 7 := by norm_num
  have hdiv1 : ∀ y : Nat, y >>> 1 = y / 2 := fun y => by
    rw [Nat.shiftRight_eq_div_pow, pow_one]
  have hs : (a + b * 256) >>> 1 = (a >>> 1 + b % 2 * 128) + b >>> 1 * 256 := by
    simp only [hdiv1]; omega
  have hu : a >>> 1 + b % 2 * 128 < 256 := by simp only [hdiv1]; omega
  have hu7 : a >>> 1 < 128 := by simp only [hdiv1]; omega
  have hb1 : b >>> 1 < 256 := by simp only [hdiv1]; omega
  have m1 : (0x5555555555555555 : Nat) % 256 = 0x55 := by decide
  have m2 : (0x55 : Nat) % 128 = 0x55 := by decide
  have m3 : (0x55 : Nat) >>> 7 = 0 := by decide
  have m4 : ((0x5555555555555555 : Nat) >>> 8) % 256 = 0x55 := by decide
  have e2 : (a >>> 1 + b % 2 * 128) &&& 0x55 = a >>> 1 &&& 0x55 := by
    rw [and_split 7 128 (a >>> 1) (b % 2) 0x55 h128 hu7, m2, m3]
    simp
  have emask : ((a + b * 256) >>> 1) &&& 0x5555555555555555
      = (a >>> 1 &&& 0x55) + (b >>> 1 &&& 0x55) * 256 := by
    rw [hs, and_split 8 256 _ _ _ h256 hu, m1, e2, and_low 8 256 _ _ h256 hb1, m4]
  have ea : a >>> 1 &&& 0x5555555555555555 = a >>> 1 &&& 0x55 := by
    rw [and_low 8 256 _ _ h256 (lt_trans hu7 (by norm_num)), m1]
  have eb : b >>> 1 &&& 0x5555555555555555 = b >>> 1 &&& 0x55 := by
    rw [and_low 8 256 _ _ h256 hb1, m1]
  have hA : a >>> 1 &&& 0x55 ≤ a := le_trans Nat.and_le_left (by simp only [hdiv1]; omega)
  have hB : b >>> 1 &&& 0x55 ≤ b := le_trans Nat.and_le_left (by simp only [hdiv1]; omega)
  unfold swar1
  rw [emask, ea, eb]
  omega

theorem swar2_split8 (c d : Nat) (hc : c < 256) (hd : d < 256) :
    swar2 (c + d * 256) = swar2 c + swar2 d * 256 := by
  have h256 : (256 : Nat) = 2 ^ 8 := by norm_num
  have h64 : (64 : Nat) = 2 ^ 6 := by norm_num
  have hdiv2 : ∀ y : Nat, y >>> 2 = y / 4 := fun y => by
    rw [Nat.shiftRight_eq_div_pow]
  have m1 : (0x3333333333333333 : Nat) % 256 = 0x33 := by decide
  have m2 : ((0x3333333333333333 : Nat) >>> 8) % 256 = 0x33 := by decide
  have m3 : (0x33 : Nat) % 64 = 0x33 := by decide
  have m4 : (0x33 : Nat) >>> 6 = 0 := by decide
  have part1 : (c + d * 256) &&& 0x3333333333333333 = (c &&& 0x33) + (d &&& 0x33) * 256 := by
    rw [and_split 8 256 c d _ h256 hc, m1, and_low 8 256 d _ h256 hd, m2]
  have hs : (c + d * 256) >>> 2 = (c >>> 2 + d % 4 * 64) + d >>> 2 * 256 := by
    simp only [hdiv2]; omega
  have hu : c >>> 2 + d % 4 * 64 < 256 := by simp only [hdiv2]; omega
  have hu6 : c >>> 2 < 64 := by simp only [hdiv2]; omega
  have hd2 : d >>> 2 < 256 := by simp only [hdiv2]; omega
  have e2 : (c >>> 2 + d % 4 * 64) &&& 0x33 = c >>> 2 &&& 0x33 := by
    rw [and_split 6 64 (c >>> 2) (d % 4) 0x33 h64 hu6, m3, m4]
    simp
  have part2 : ((c + d * 256) >>> 2) &&& 0x3333333333333333
      = (c >>> 2 &&& 0x33) + (d >>> 2 &&& 0x33) * 256 := by
    rw [hs, and_split 8 256 _ _ _ h256 hu, m1, e2, and_low 8 256 _ _ h256 hd2, m2]
  have ec : c &&& 0x3333333333333333 = c &&& 0x33 := by
    rw [and_low 8 256 c _ h256 hc, m1]
  have ec2 : c >>> 2 &&& 0x3333333333333333 = c >>> 2 &&& 0x33 := by
    rw [and_low 8 256 _ _ h256 (lt_trans hu6 (by norm_num)), m1]
  have ed : d &&& 0x3333333333333333 = d &&& 0x33 := by
    rw [and_low 8 256 d _ h256 hd, m1]
  have ed2 : d >>> 2 &&& 0x3333333333333333 = d >>> 2 &&& 0x33 := by
    rw [and_low 8 256 _ _ h256 hd2, m1]
  unfold swar2
  rw [part1, part2, ec, ec2, ed, ed2]
  ring

theorem swar3_split8 (e f : Nat) (he : e ≤ 0x44) (hf : f ≤ 0x44) (hf4 : f % 16 ≤ 4) :
    swar3 (e + f * 256) = swar3 e + swar3 f * 256 := by
  have h256 : (256 : Nat) = 2 ^ 8 := by norm_num
  have h16 : (16 : Nat) = 2 ^ 4 := by norm_num
  have hdiv4 : ∀ y : Nat, y >>> 4 = y / 16 := fun y => by
    rw [Nat.shiftRight_eq_div_pow]
  have m1 : (0x0F0F0F0F0F0F0F0F : Nat) % 256 = 0x0F := by decide
  have m2 : ((0x0F0F0F0F0F0F0F0F : Nat) >>> 8) % 256 = 0x0F := by decide
  have hs : (e + f * 256) >>> 4 = (e >>> 4 + f % 16 * 16) + f >>> 4 * 256 := by
    simp only [hdiv4]; omega
  have hsum : (e + f * 256) + (e + f * 256) >>> 4
      = (e + e >>> 4 + f % 16 * 16) + (f + f >>> 4) * 256 := by
    rw [hs]; ring
  have hlow : e + e >>> 4 + f % 16 * 16 < 256 := by simp only [hdiv4]; omega
  have hh : f + f >>> 4 < 256 := by simp only [hdiv4]; omega
  have hmain : ((e + f * 256) + (e + f * 256) >>> 4) &&& 0x0F0F0F0F0F0F0F0F
      = ((e + e >>> 4 + f % 16 * 16) &&& 0x0F) + ((f + f >>> 4) &&& 0x0F) * 256 := by
    rw [hsum, and_split 8 256 _ _ _ h256 hlow, m1, and_low 8 256 _ _ h256 hh, m2]
  have hdrop : (e + e >>> 4 + f % 16 * 16) &&& 0x0F = (e + e >>> 4) &&& 0x0F := by
    rw [and_mod_left 4 16 _ 0x0F h16 (by norm_num),
      and_mod_left 4 16 (e + e >>> 4) 0x0F h16 (by norm_num)]
    congr 1
    omega
  have he1 : (e + e >>> 4) &&& 0x0F0F0F0F0F0F0F0F = (e + e >>> 4) &&& 0x0F := by
    rw [and_low 8 256 _ _ h256 (by simp only [hdiv4]; omega), m1]
  have hf1 : (f + f >>> 4) &&& 0x0F0F0F0F0F0F0F0F = (f + f >>> 4) &&& 0x0F := by
    rw [and_low 8 256 _ _ h256 hh, m1]
  unfold swar3
  rw [hmain, hdrop, he1, hf1]

end bitfield

namespace bitfield

theorem bitsum_mod (w y : Nat) : bitsum w (y % 2 ^ w) = bitsum w y := by
  apply bitsum_congr
  intro j hj
  rw [Nat.testBit_mod_two_pow]
  simp [hj]

theorem swar1_split16 (a b : Nat) (ha : a < 65536) (hb : b < 65536) :
    swar1 (a + b * 65536) = swar1 a + swar1 b * 65536 := by
  have hp : (65536 : Nat) = 2 ^ 16 := by norm_num
  have hp15 : (32768 : Nat) = 2 ^ 15 := by norm_num
  have hdiv1 : ∀ y : Nat, y >>> 1 = y / 2 := fun y => by
    rw [Nat.shiftRight_eq_div_pow, pow_one]
  have hs : (a + b * 65536) >>> 1 = (a >>> 1 + b % 2 * 32768) + b >>> 1 * 65536 := by
    simp only [hdiv1]; omega
  have hu : a >>> 1 + b % 2 * 32768 < 65536 := by simp only [hdiv1]; omega
  have hu15 : a >>> 1 < 32768 := by simp only [hdiv1]; omega
  have hb1 : b >>> 1 < 65536 := by simp only [hdiv1]; omega
  have m1 : (0x5555555555555555 : Nat) % 65536 = 0x5555 := by decide
  have m2 : (0x5555 : Nat) % 32768 = 0x5555 := by decide
  have m3 : (0x5555 : Nat) >>> 15 = 0 := by decide
  have m4 : ((0x5555555555555555 : Nat) >>> 16) % 65536 = 0x5555 := by decide
  have e2 : (a >>> 1 + b % 2 * 32768) &&& 0x5555 = a >>> 1 &&& 0x5555 := by
    rw [and_split 15 32768 (a >>> 1) (b % 2) 0x5555 hp15 hu15, m2, m3]
    simp
  have emask : ((a + b * 65536) >>> 1) &&& 0x5555555555555555
      = (a >>> 1 &&& 0x5555) + (b >>> 1 &&& 0x5555) * 65536 := by
    rw [hs, and_split 16 65536 _ _ _ hp hu, m1, e2, and_low 16 65536 _ _ hp hb1, m4]
  have ea : a >>> 1 &&& 0x5555555555555555 = a >>> 1 &&& 0x5555 := by
    rw [and_low 16 65536 _ _ hp (lt_trans hu15 (by norm_num)), m1]
  have eb : b >>> 1 &&& 0x5555555555555555 = b >>> 1 &&& 0x5555 := by
    rw [and_low 16 65536 _ _ hp hb1, m1]
  have hA : a >>> 1 &&& 0x5555 ≤ a := le_trans Nat.and_le_left (by simp only [hdiv1]; omega)
  have hB : b >>> 1 &&& 0x5555 ≤ b := le_trans Nat.and_le_left (by simp only [hdiv1]; omega)
  unfold swar1
  rw [emask, ea, eb]
  omega

theorem swar2_split16 (c d : Nat) (hc : c < 65536) (hd : d < 65536) :
    swar2 (c + d * 65536) = swar2 c + swar2 d * 65536 := by
  have hp : (65536 : Nat) = 2 ^ 16 := by norm_num
  have hp14 : (16384 : Nat) = 2 ^ 14 := by norm_num
  have hdiv2 : ∀ y : Nat, y >>> 2 = y / 4 := fun y => by
    rw [Nat.shiftRight_eq_div_pow]
  have m1 : (0x3333333333333333 : Nat) % 65536 = 0x3333 := by decide
  have m2 : ((0x3333333333333333 : Nat) >>> 16) % 65536 = 0x3333 := by decide
  have m3 : (0x3333 : Nat) % 16384 = 0x3333 := by decide
  have m4 : (0x3333 : Nat) >>> 14 = 0 := by decide
  have part1 : (c + d * 65536) &&& 0x3333333333333333
      = (c &&& 0x3333) + (d &&& 0x3333) * 65536 := by
    rw [and_split 16 65536 c d _ hp hc, m1, and_low 16 65536 d _ hp hd, m2]
  have hs : (c + d * 65536) >>> 2 = (c >>> 2 + d % 4 * 16384) + d >>> 2 * 65536 := by
    simp only [hdiv2]; omega
  have hu : c >>> 2 + d % 4 * 16384 < 65536 := by simp only [hdiv2]; omega
  have hu14 : c >>> 2 < 16384 := by simp only [hdiv2]; omega
  have hd2 : d >>> 2 < 65536 := by simp only [hdiv2]; omega
  have e2 : (c >>> 2 + d % 4 * 16384) &&& 0x3333 = c >>> 2 &&& 0x3333 := by
    rw [and_split 14 16384 (c >>> 2) (d % 4) 0x3333 hp14 hu14, m3, m4]
    simp
  have part2 : ((c + d * 65536) >>> 2) &&& 0x3333333333333333
      = (c >>> 2 &&& 0x3333) + (d >>> 2 &&& 0x3333) * 65536 := by
    rw [hs, and_split 16 65536 _ _ _ hp hu, m1, e2, and_low 16 65536 _ _ hp hd2, m2]
  have ec : c &&& 0x3333333333333333 = c &&& 0x3333 := by
    rw [and_low 16 65536 c _ hp hc, m1]
  have ec2 : c >>> 2 &&& 0x3333333333333333 = c >>> 2 &&& 0x3333 := by
    rw [and_low 16 65536 _ _ hp (lt_trans hu14 (by norm_num)), m1]
  have ed : d &&& 0x3333333333333333 = d &&& 0x3333 := by
    rw [and_low 16 65536 d _ hp hd, m1]
  have ed2 : d >>> 2 &&& 0x3333333333333333 = d >>> 2 &&& 0x3333 := by
    rw [and_low 16 65536 _ _ hp hd2, m1]
  unfold swar2
  rw [part1, part2, ec, ec2, ed, ed2]
  ring

theorem swar3_split16 (e f : Nat) (he : e ≤ 0x4444) (hf : f ≤ 0x4444) (hf4 : f % 16 ≤ 4) :
    swar3 (e + f * 65536) = swar3 e + swar3 f * 65536 := by
  have hp : (65536 : Nat) = 2 ^ 16 := by norm_num
  have hp12 : (4096 : Nat) = 2 ^ 12 := by norm_num
  have hdiv4 : ∀ y : Nat, y >>> 4 = y / 16 := fun y => by
    rw [Nat.shiftRight_eq_div_pow]
  have m1 : (0x0F0F0F0F0F0F0F0F : Nat) % 65536 = 0x0F0F := by decide
  have m2 : ((0x0F0F0F0F0F0F0F0F : Nat) >>> 16) % 65536 = 0x0F0F := by decide
  have hs : (e + f * 65536) >>> 4 = (e >>> 4 + f % 16 * 4096) + f >>> 4 * 65536 := by
    simp only [hdiv4]; omega
  have hsum : (e + f * 65536) + (e + f * 65536) >>> 4
      = (e + e >>> 4 + f % 16 * 4096) + (f + f >>> 4) * 65536 := by
    rw [hs]; ring
  have hlow : e + e >>> 4 + f % 16 * 4096 < 65536 := by simp only [hdiv4]; omega
  have hh : f + f >>> 4 < 65536 := by simp only [hdiv4]; omega
  have hmain : ((e + f * 65536) + (e + f * 65536) >>> 4) &&& 0x0F0F0F0F0F0F0F0F
      = ((e + e >>> 4 + f % 16 * 4096) &&& 0x0F0F) + ((f + f >>> 4) &&& 0x0F0F) * 65536 := by
    rw [hsum, and_split 16 65536 _ _ _ hp hlow, m1, and_low 16 65536 _ _ hp hh, m2]
  have hdrop : (e + e >>> 4 + f % 16 * 4096) &&& 0x0F0F = (e + e >>> 4) &&& 0x0F0F := by
    rw [and_mod_left 12 4096 _ 0x0F0F hp12 (by norm_num),
      and_mod_left 12 4096 (e + e >>> 4) 0x0F0F hp12 (by norm_num)]
    congr 1
    omega
  have he1 : (e + e >>> 4) &&& 0x0F0F0F0F0F0F0F0F = (e + e >>> 4) &&& 0x0F0F := by
    rw [and_low 16 65536 _ _ hp (by simp only [hdiv4]; omega), m1]
  have hf1 : (f + f >>> 4) &&& 0x0F0F0F0F0F0F0F0F = (f + f >>> 4) &&& 0x0F0F := by
    rw [and_low 16 65536 _ _ hp hh, m1]
  unfold swar3
  rw [hmain, hdrop, he1, hf1]

end bitfield

namespace bitfield

theorem swar12_eq16 (a : Nat) (ha : a < 65536) :
    swar2 (swar1 a) = swar2 (swar1 (a % 256)) + swar2 (swar1 (a / 256)) * 256 := by
  have h1 : a % 256 < 256 := Nat.mod_lt _ (by norm_num)
  have h2 : a / 256 < 256 := by omega
  conv_lhs => rw [show a = a % 256 + a / 256 * 256 by omega]
  rw [swar1_split8 _ _ h1 h2,
    swar2_split8 _ _ (lt_of_le_of_lt (swar1_le _) h1) (lt_of_le_of_lt (swar1_le _) h2)]

theorem swar12_bound16 (a : Nat) (ha : a < 65536) :
    swar2 (swar1 a) ≤ 0x4444 ∧ swar2 (swar1 a) % 16 ≤ 4 := by
  have h1 : a % 256 < 256 := Nat.mod_lt _ (by norm_num)
  have h2 : a / 256 < 256 := by omega
  have hb1 := swar_byte_bound (a % 256) h1
  have hb2 := swar_byte_bound (a / 256) h2
  rw [swar12_eq16 a ha]
  omega

theorem swar123_word16 (a : Nat) (ha : a < 65536) :
    swar3 (swar2 (swar1 a)) = bitsum 8 (a % 256) + bitsum 8 (a / 256) * 256 := by
  have h1 : a % 256 < 256 := Nat.mod_lt _ (by norm_num)
  have h2 : a / 256 < 256 := by omega
  have hb1 := swar_byte_bound (a % 256) h1
  have hb2 := swar_byte_bound (a / 256) h2
  rw [swar12_eq16 a ha, swar3_split8 _ _ hb1.1 hb2.1 hb2.2,
    swar_byte (a % 256) h1, swar_byte (a / 256) h2]

theorem swar123_word32 (x : Nat) (hx : x < 4294967296) :
    swar3 (swar2 (swar1 x))
      = bitsum 8 (x % 65536 % 256) + bitsum 8 (x % 65536 / 256) * 256
        + bitsum 8 (x / 65536 % 256) * 65536 + bitsum 8 (x / 65536 / 256) * 16777216 := by
  have ha : x % 65536 < 65536 := Nat.mod_lt _ (by norm_num)
  have hb : x / 65536 < 65536 := by omega
  have hs1a : swar1 (x % 65536) < 65536 := lt_of_le_of_lt (swar1_le _) ha
  have hs1b : swar1 (x / 65536) < 65536 := lt_of_le_of_lt (swar1_le _) hb
  have hba := swar12_bound16 (x % 65536) ha
  have hbb := swar12_bound16 (x / 65536) hb
  conv_lhs => rw [show x = x % 65536 + x / 65536 * 65536 by omega]
  rw [swar1_split16 _ _ ha hb, swar2_split16 _ _ hs1a hs1b,
    swar3_split16 _ _ hba.1 hbb.1 hbb.2,
    swar123_word16 _ ha, swar123_word16 _ hb]
  ring

theorem mul_stage (p0 p1 p2 p3 : Nat) (h0 : p0 ≤ 8) (h1 : p1 ≤ 8) (h2 : p2 ≤ 8) (h3 : p3 ≤ 8) :
    (((p0 + p1 * 256 + p2 * 65536 + p3 * 16777216) * 0x0101010101010101)
        % 18446744073709551616) >>> 56
      = p0 + p1 + p2 + p3 := by
  rw [Nat.shiftRight_eq_div_pow]
  have hexp : (p0 + p1 * 256 + p2 * 65536 + p3 * 16777216) * 0x0101010101010101
      = (p0 * 72340172838076673 + p1 * 72340172838076672 + p2 * 72340172838076416
          + p3 * 72340172838010880)
        + 18446744073709551616 * (p1 + p2 * 257 + p3 * 65793) := by ring
  have hlow : p0 * 72340172838076673 + p1 * 72340172838076672 + p2 * 72340172838076416
      + p3 * 72340172838010880 < 18446744073709551616 := by omega
  have hmod : (p0 + p1 * 256 + p2 * 65536 + p3 * 16777216) * 0x0101010101010101
        % 18446744073709551616
      = p0 * 72340172838076673 + p1 * 72340172838076672 + p2 * 72340172838076416
        + p3 * 72340172838010880 := by
    rw [hexp, Nat.add_mul_mod_self_left]
    exact Nat.mod_eq_of_lt hlow
  rw [hmod]
  have hsplit : p0 * 72340172838076673 + p1 * 72340172838076672 + p2 * 72340172838076416
      + p3 * 72340172838010880
      = (p0 * 282578800148737 + p1 * 282578800148736 + p2 * 282578800148480
          + p3 * 282578800082944) + 72057594037927936 * (p0 + p1 + p2 + p3) := by ring
  have hrest : p0 * 282578800148737 + p1 * 282578800148736 + p2 * 282578800148480
      + p3 * 282578800082944 < 72057594037927936 := by omega
  rw [hsplit]
  show (_ + 72057594037927936 * _) / 2 ^ 56 = _
  have h56 : (72057594037927936 : Nat) = 2 ^ 56 := by norm_num
  rw [h56] at hrest ⊢
  rw [Nat.add_mul_div_left _ _ (Nat.two_pow_pos 56), Nat.div_eq_of_lt hrest, Nat.zero_add]

theorem number_of_set_bits_correct (x : Nat) (hx : x < 4294967296) :
    detail.number_of_set_bits x = bitsum 32 x := by
  rw [number_of_set_bits_eq_swar, Nat.mod_eq_of_lt (lt_trans hx (by norm_num)),
    swar123_word32 x hx,
    mul_stage _ _ _ _ (bitsum_le 8 _) (bitsum_le 8 _) (bitsum_le 8 _) (bitsum_le 8 _)]
  have e256 : (256 : Nat) = 2 ^ 8 := by norm_num
  have b0 : bitsum 8 (x % 65536 % 256) = bitsum 8 x := by
    rw [show x % 65536 % 256 = x % 256 by omega, e256, bitsum_mod]
  have b1 : bitsum 8 (x % 65536 / 256) = bitsum 8 (x >>> 8) := by
    rw [show x % 65536 / 256 = x / 256 % 256 by omega, e256, bitsum_mod,
      Nat.shiftRight_eq_div_pow]
  have b2 : bitsum 8 (x / 65536 % 256) = bitsum 8 (x >>> 16) := by
    rw [e256, bitsum_mod, Nat.shiftRight_eq_div_pow]
  have b3 : bitsum 8 (x / 65536 / 256) = bitsum 8 ((x >>> 16) >>> 8) := by
    simp only [Nat.shiftRight_eq_div_pow]
  have h1 : bitsum 32 x = bitsum 16 x + bitsum 16 (x >>> 16) := bitsum_split 16 16 x
  have h2 : bitsum 16 x = bitsum 8 x + bitsum 8 (x >>> 8) := bitsum_split 8 8 x
  have h3 : bitsum 16 (x >>> 16) = bitsum 8 (x >>> 16) + bitsum 8 ((x >>> 16) >>> 8) :=
    bitsum_split 8 8 _
  rw [b0, b1, b2, b3, h1, h2, h3]
  omega

end bitfield

namespace bitfield

theorem read_u32_lt (f : Bitfield) (j : Nat) : read_u32 f j < 4294967296 :=
  Nat.mod_lt _ (by norm_num)

theorem get_bit_read_u32 (f : Bitfield) (j t : Nat) (ht : t < 32) :
    get_bit f (32 * j + t) = (read_u32 f j).testBit t := by
  have h1 : (32 * j + t) / 64 = j / 2 := by omega
  have h2 : (32 * j + t) % 64 = 32 * (j % 2) + t := by omega
  rw [get_bit_eq_testBit, h1, h2, read_u32,
    show (4294967296 : Nat) = 2 ^ 32 by norm_num,
    Nat.testBit_mod_two_pow, Nat.testBit_shiftRight]
  simp [ht]

theorem bitsum32_chunk (f : Bitfield) (j : Nat) :
    bitsum 32 (read_u32 f j) = (List.range' (32 * j) 32).countP (fun i => get_bit f i) := by
  rw [bitsum_eq_countP, List.range'_eq_map_range, List.countP_map]
  apply List.countP_congr
  intro t htm
  rw [List.mem_range] at htm
  simp only [Function.comp_apply]
  rw [get_bit_read_u32 f j t htm]

theorem bitsum32_chunk_masked (f : Bitfield) (j r : Nat) (hr : r ≤ 32) :
    bitsum 32 (read_u32 f j % 2 ^ r)
      = (List.range' (32 * j) r).countP (fun i => get_bit f i) := by
  rw [bitsum_eq_countP]
  have hsplit : List.range 32 = List.range r ++ List.range' r (32 - r) := by
    rw [List.range_eq_range', List.range_eq_range']
    have h := List.range'_append_1 0 r (32 - r)
    rw [Nat.zero_add] at h
    rw [h]
    congr 1
    omega
  rw [hsplit, List.countP_append]
  have hz : (List.range' r (32 - r)).countP (fun t => (read_u32 f j % 2 ^ r).testBit t) = 0 := by
    rw [List.countP_eq_zero]
    intro t htm
    rw [List.mem_range'] at htm
    obtain ⟨i, hi, rfl⟩ := htm
    rw [Nat.testBit_mod_two_pow]
    simp only [Bool.and_eq_true, decide_eq_true_eq, not_and]
    intro hlt
    omega
  rw [hz, Nat.add_zero]
  rw [List.range'_eq_map_range, List.countP_map]
  apply List.countP_congr
  intro t htm
  rw [List.mem_range] at htm
  simp only [Function.comp_apply]
  rw [get_bit_read_u32 f j t (by omega), Nat.testBit_mod_two_pow]
  simp [htm]

theorem nbs_full_sum (f : Bitfield) : ∀ n,
    ((List.range n).map (fun j => detail.number_of_set_bits (read_u32 f j))).sum
      = (List.range' 0 (32 * n)).countP (fun i => get_bit f i) := by
  intro n
  induction n with
  | zero => simp
  | succ n ih =>
    rw [List.range_succ, List.map_append, List.sum_append,
      show 32 * (n + 1) = 32 + 32 * n by ring,
      ← List.range'_append_1 0 (32 * n) 32, List.countP_append, ← ih, Nat.zero_add]
    simp only [List.map_cons, List.map_nil, List.sum_cons, List.sum_nil]
    rw [number_of_set_bits_correct _ (read_u32_lt f n), bitsum32_chunk]
    omega

theorem number_of_bits_set_eq_countP (f : Bitfield) :
    number_of_bits_set f = (List.range f.count).countP (fun i => get_bit f i) := by
  rw [number_of_bits_set]
  by_cases hr : f.count % 32 = 0
  · simp only [hr, if_neg (by simp : ¬(0 : Nat) ≠ 0)]
    rw [nbs_full_sum, List.range_eq_range']
    conv_rhs => rw [show f.count = 32 * (f.count / 32) by omega]
  · simp only [if_pos hr]
    have hbp : detail.bit_pattern (f.count % 32) = 2 ^ (f.count % 32) := by
      rw [bit_pattern_eq]
      congr 1
      omega
    rw [hbp, Nat.and_pow_two_sub_one_eq_mod,
      number_of_set_bits_correct _
        (lt_of_lt_of_le (Nat.mod_lt _ (Nat.two_pow_pos _))
          (Nat.pow_le_pow_right (by norm_num) (le_of_lt (Nat.mod_lt _ (by norm_num))))),
      bitsum32_chunk_masked f _ _ (le_of_lt (Nat.mod_lt _ (by norm_num))),
      nbs_full_sum, List.range_eq_range']
    conv_rhs => rw [show f.count = f.count % 32 + 32 * (f.count / 32) by omega]
    rw [← List.range'_append_1 0 (32 * (f.count / 32)) (f.count % 32), List.countP_append,
      Nat.zero_add]

end bitfield

/-! Helpers about storage updates. -/

namespace bitfield

theorem getD_set_self (bl : List Nat) (k v : Nat) (hk : k < bl.length) :
    (bl.set k v).getD k 0 = v := by
  rw [List.getD_eq_getElem?_getD, List.getElem?_set_self hk]
  rfl

theorem getD_set_ne (bl : List Nat) (k j v : Nat) (h : k ≠ j) :
    (bl.set k v).getD j 0 = bl.getD j 0 := by
  rw [List.getD_eq_getElem?_getD, List.getElem?_set_ne h, ← List.getD_eq_getElem?_getD]

theorem getD_set (bl : List Nat) (k j v : Nat) :
    (bl.set k v).getD j 0 = if k = j ∧ k < bl.length then v else bl.getD j 0 := by
  by_cases hkj : k = j
  · subst hkj
    by_cases hk : k < bl.length
    · rw [getD_set_self bl k v hk]
      simp [hk]
    · rw [List.set_eq_of_length_le (by omega)]
      simp [hk]
  · rw [getD_set_ne bl k j v hkj]
    simp [hkj]

theorem foldl_set_length (p : Nat → Nat) (g : List Nat → Nat → Nat) :
    ∀ (l : List Nat) (bl : List Nat),
      (l.foldl (fun acc i => acc.set (p i) (g acc i)) bl).length = bl.length := by
  intro l
  induction l with
  | nil => intro bl; rfl
  | cons a l ih =>
    intro bl
    rw [List.foldl_cons, ih, List.length_set]

theorem foldl_set_getD (h : Nat → Nat) (n : Nat) :
    ∀ (bl : List Nat) (j : Nat),
      ((List.range n).foldl (fun acc i => acc.set i (h i)) bl).getD j 0
        = if j < n ∧ j < bl.length then h j else bl.getD j 0 := by
  induction n with
  | zero =>
    intro bl j
    rw [List.range_zero, List.foldl_nil, if_neg (by omega)]
  | succ n ih =>
    intro bl j
    rw [List.range_succ, List.foldl_append, List.foldl_cons, List.foldl_nil, getD_set, ih,
      foldl_set_length (fun i => i) (fun acc i => h i)]
    by_cases h2 : n = j
    · subst h2
      by_cases h3 : n < bl.length
      · rw [if_pos ⟨rfl, h3⟩, if_pos (by omega)]
      · rw [if_neg (by omega), if_neg (by omega), if_neg (by omega)]
    · rw [if_neg (by omega)]
      have hiff : (j < n ∧ j < bl.length) ↔ (j < n + 1 ∧ j < bl.length) := by omega
      simp only [hiff]

theorem memset_blocks_length (bl : List Nat) (lo n v : Nat) :
    (memset_blocks bl lo n v).length = bl.length := by
  rw [memset_blocks]
  exact foldl_set_length (fun t => lo + t) (fun acc t => v) (List.range n) bl

theorem memset_blocks_getD (bl : List Nat) (lo v : Nat) (n : Nat) :
    ∀ j, (memset_blocks bl lo n v).getD j 0
      = if lo ≤ j ∧ j < lo + n ∧ j < bl.length then v else bl.getD j 0 := by
  induction n with
  | zero =>
    intro j
    rw [memset_blocks, List.range_zero, List.foldl_nil, if_neg (by omega)]
  | succ n ih =>
    intro j
    rw [memset_blocks, List.range_succ, List.foldl_append, List.foldl_cons, List.foldl_nil]
    have hmem : (List.range n).foldl (fun acc t => acc.set (lo + t) v) bl
        = memset_blocks bl lo n v := rfl
    rw [hmem, getD_set, ih j, memset_blocks_length]
    by_cases h2 : lo + n = j
    · subst h2
      by_cases h3 : lo + n < bl.length
      · rw [if_pos ⟨rfl, h3⟩, if_pos (by omega)]
      · rw [if_neg (by omega), if_neg (by omega), if_neg (by omega)]
    · rw [if_neg (by omega)]
      have hiff : (lo ≤ j ∧ j < lo + n ∧ j < bl.length)
          ↔ (lo ≤ j ∧ j < lo + (n + 1) ∧ j < bl.length) := by omega
      simp only [hiff]

theorem mapBlocks_count (f : Bitfield) (g : List Nat → List Nat) :
    (f.mapBlocks g).count = f.count := rfl

theorem mapBlocks_blocks (f : Bitfield) (g : List Nat → List Nat)
    (h : 0 < f.blocks.length) : (f.mapBlocks g).blocks = g f.blocks := by
  match hp : f.ptr with
  | none =>
    rw [Bitfield.blocks, hp] at h
    simp at h
  | some bl =>
    rw [Bitfield.mapBlocks, Bitfield.blocks, hp]
    rw [Bitfield.blocks, hp]
    rfl

theorem num_blocks_eq (f : Bitfield) : detail.num_blocks f = (f.count + 63) / 64 := by
  rw [detail.num_blocks, Bitfield.size_in_bytes]
  omega

theorem block_idx_lt (f : Bitfield) (i : Nat) (hi : i < f.count) :
    detail.block_idx i < detail.num_blocks f := by
  rw [num_blocks_eq, detail.block_idx, detail.bits_per_block]
  omega

end bitfield

namespace bitfield

theorem block_idx_eq (i : Nat) : detail.block_idx i = i / 64 := rfl

theorem blockGet_eq (f : Bitfield) (k : Nat) : blockGet f k = f.blocks.getD k 0 := rfl

theorem blocks_pos (f : Bitfield) (i : Nat) (hi : i < f.count)
    (hlen : detail.num_blocks f ≤ f.blocks.length) : 0 < f.blocks.length := by
  have h := block_idx_lt f i hi
  omega

theorem get_bit_set_bit (f : Bitfield) (i : Nat) (hi : i < f.count)
    (hlen : detail.num_blocks f ≤ f.blocks.length) :
    get_bit (set_bit f i) i = true := by
  have hk : i / 64 < f.blocks.length := by
    have := block_idx_lt f i hi
    rw [block_idx_eq] at this
    omega
  have hpos : 0 < f.blocks.length := by omega
  have hblocks : (set_bit f i).blocks
      = f.blocks.set (i / 64) (f.blocks.getD (i / 64) 0 ||| detail.bit_pattern i) := by
    rw [set_bit, mapBlocks_blocks f _ hpos, block_idx_eq]
  rw [get_bit_eq_testBit, blockGet_eq, hblocks, getD_set_self _ _ _ hk, Nat.testBit_or,
    bit_pattern_eq, Nat.testBit_two_pow_self, Bool.or_true]

theorem get_bit_clear_bit (f : Bitfield) (i : Nat) (hi : i < f.count)
    (hlen : detail.num_blocks f ≤ f.blocks.length) :
    get_bit (clear_bit f i) i = false := by
  have hk : i / 64 < f.blocks.length := by
    have := block_idx_lt f i hi
    rw [block_idx_eq] at this
    omega
  have hpos : 0 < f.blocks.length := by omega
  have hblocks : (clear_bit f i).blocks
      = f.blocks.set (i / 64) (f.blocks.getD (i / 64) 0 &&& compl64 (detail.bit_pattern i)) := by
    rw [clear_bit, mapBlocks_blocks f _ hpos, block_idx_eq]
  rw [get_bit_eq_testBit, blockGet_eq, hblocks, getD_set_self _ _ _ hk, Nat.testBit_and,
    compl64_testBit _ _ (Nat.mod_lt _ (by norm_num)), bit_pattern_eq,
    Nat.testBit_two_pow_self]
  simp

theorem invert_bit_flips (f : Bitfield) (i : Nat) (hi : i < f.count)
    (hlen : detail.num_blocks f ≤ f.blocks.length) :
    get_bit ((invert_bit f i).1) i = !(get_bit f i) := by
  have hk : i / 64 < f.blocks.length := by
    have := block_idx_lt f i hi
    rw [block_idx_eq] at this
    omega
  have hpos : 0 < f.blocks.length := by omega
  have hblocks : ((invert_bit f i).1).blocks
      = f.blocks.set (i / 64) (blockGet f (i / 64) ^^^ detail.bit_pattern i) := by
    rw [invert_bit, mapBlocks_blocks f _ hpos, block_idx_eq]
  rw [get_bit_eq_testBit, blockGet_eq, hblocks, getD_set_self _ _ _ hk, Nat.testBit_xor,
    bit_pattern_eq, Nat.testBit_two_pow_self, get_bit_eq_testBit, blockGet_eq]
  cases (f.blocks.getD (i / 64) 0).testBit (i % 64) <;> rfl

theorem invert_bit_snd (f : Bitfield) (i : Nat) (hi : i < f.count)
    (hlen : detail.num_blocks f ≤ f.blocks.length) :
    (invert_bit f i).2 = (((invert_bit f i).1).blocks.getD (i / 64) 0 != 0) := by
  have hk : i / 64 < f.blocks.length := by
    have := block_idx_lt f i hi
    rw [block_idx_eq] at this
    omega
  have hpos : 0 < f.blocks.length := by omega
  have hblocks : ((invert_bit f i).1).blocks
      = f.blocks.set (i / 64) (blockGet f (i / 64) ^^^ detail.bit_pattern i) := by
    rw [invert_bit, mapBlocks_blocks f _ hpos, block_idx_eq]
  rw [hblocks, getD_set_self _ _ _ hk]
  rfl

theorem get_bit_combine (dst a b : Bitfield) (op : Nat → Nat → Nat) (i : Nat)
    (hi : i < dst.count) (hlen : detail.num_blocks dst ≤ dst.blocks.length) :
    get_bit (combine_blocks dst a b op) i
      = (op (blockGet a (i / 64)) (blockGet b (i / 64))).testBit (i % 64) := by
  have hk : i / 64 < detail.num_blocks dst := by
    have := block_idx_lt dst i hi
    rw [block_idx_eq] at this
    exact this
  have hpos : 0 < dst.blocks.length := by omega
  have hblocks : (combine_blocks dst a b op).blocks
      = (List.range (detail.num_blocks dst)).foldl
          (fun acc k => acc.set k (op (blockGet a k) (blockGet b k))) dst.blocks := by
    rw [combine_blocks, mapBlocks_blocks dst _ hpos]
  rw [get_bit_eq_testBit, blockGet_eq, hblocks,
    foldl_set_getD (fun k => op (blockGet a k) (blockGet b k)) _ _ _,
    if_pos ⟨hk, by omega⟩]

end bitfield

namespace bitfield

theorem mask_xor_testBit (p q j : Nat) (hpq : p ≤ q) :
    ((2 ^ p - 1) ^^^ (2 ^ q - 1)).testBit j = decide (p ≤ j ∧ j < q) := by
  rw [Nat.testBit_xor, Nat.testBit_two_pow_sub_one, Nat.testBit_two_pow_sub_one]
  by_cases h1 : j < p <;> by_cases h2 : j < q <;> simp [h1, h2] <;> omega

theorem compl64_mask_testBit (p j : Nat) (hp : p ≤ 64) :
    (compl64 (2 ^ p - 1)).testBit j = decide (p ≤ j ∧ j < 64) := by
  rw [compl64, show (0xFFFFFFFFFFFFFFFF : Nat) = 2 ^ 64 - 1 by norm_num]
  exact mask_xor_testBit p 64 j hp

theorem get_bit_set_range (f : Bitfield) (b e i : Nat) (hbe : b ≤ e) (he : e ≤ f.count)
    (hi : i < f.count) (hlen : detail.num_blocks f ≤ f.blocks.length) :
    get_bit (set_range f b e) i = (get_bit f i || decide (b ≤ i ∧ i < e)) := by
  have hki : i / 64 < f.blocks.length := by
    have := block_idx_lt f i hi
    rw [block_idx_eq] at this
    omega
  have hpos : 0 < f.blocks.length := by omega
  have hmod64 : i % 64 < 64 := Nat.mod_lt _ (by norm_num)
  by_cases hsame : b / 64 = e / 64
  · have hblocks : (set_range f b e).blocks
        = f.blocks.set (b / 64)
            (f.blocks.getD (b / 64) 0
              ||| ((detail.bit_pattern b - 1) ^^^ (detail.bit_pattern e - 1))) := by
      rw [set_range]
      simp only [block_idx_eq]
      rw [if_pos hsame, mapBlocks_blocks f _ hpos]
    rw [get_bit_eq_testBit, blockGet_eq, hblocks, getD_set, get_bit_eq_testBit, blockGet_eq]
    by_cases hib : b / 64 = i / 64
    · rw [if_pos ⟨hib, by omega⟩, hib, Nat.testBit_or, bit_pattern_eq, bit_pattern_eq,
        mask_xor_testBit _ _ _ (by omega)]
      have hd : decide (b % 64 ≤ i % 64 ∧ i % 64 < e % 64) = decide (b ≤ i ∧ i < e) := by
        rw [decide_eq_decide]
        omega
      rw [hd]
    · rw [if_neg (by omega)]
      have hd : decide (b ≤ i ∧ i < e) = false := by
        simp only [decide_eq_false_iff_not]
        omega
      rw [hd, Bool.or_false]
  · have hlt : b / 64 < e / 64 := by omega
    have hblocks : (set_range f b e).blocks
        = memset_blocks
            ((f.blocks.set (b / 64)
                (f.blocks.getD (b / 64) 0 ||| compl64 (detail.bit_pattern b - 1))).set (e / 64)
              ((f.blocks.set (b / 64)
                  (f.blocks.getD (b / 64) 0 ||| compl64 (detail.bit_pattern b - 1))).getD (e / 64) 0
                ||| (detail.bit_pattern e - 1)))
            (b / 64 + 1) (e / 64 - b / 64 - 1) 0xFFFFFFFFFFFFFFFF := by
      rw [set_range]
      simp only [block_idx_eq]
      rw [if_neg hsame, mapBlocks_blocks f _ hpos]
    rw [get_bit_eq_testBit, blockGet_eq, hblocks, memset_blocks_getD]
    simp only [List.length_set]
    by_cases hint : b / 64 + 1 ≤ i / 64 ∧ i / 64 < e / 64
    · rw [if_pos (by omega),
        show (0xFFFFFFFFFFFFFFFF : Nat) = 2 ^ 64 - 1 by norm_num,
        Nat.testBit_two_pow_sub_one, decide_eq_true hmod64]
      have hd : decide (b ≤ i ∧ i < e) = true := by
        simp only [decide_eq_true_eq]
        omega
      rw [hd, Bool.or_true]
    · rw [if_neg (by omega), getD_set]
      simp only [List.length_set]
      by_cases hib : b / 64 = i / 64
      · rw [if_neg (by omega), getD_set, if_pos ⟨hib, by omega⟩, hib, Nat.testBit_or,
          bit_pattern_eq, compl64_mask_testBit _ _ (by omega), get_bit_eq_testBit, blockGet_eq]
        have hd : decide (b % 64 ≤ i % 64 ∧ i % 64 < 64) = decide (b ≤ i ∧ i < e) := by
          rw [decide_eq_decide]
          omega
        rw [hd]
      · by_cases hie : e / 64 = i / 64
        · rw [if_pos ⟨hie, by omega⟩, getD_set, if_neg (by omega), hie, Nat.testBit_or,
            bit_pattern_eq, Nat.testBit_two_pow_sub_one, get_bit_eq_testBit, blockGet_eq]
          have hd : decide (i % 64 < e % 64) = decide (b ≤ i ∧ i < e) := by
            rw [decide_eq_decide]
            omega
          rw [hd]
        · rw [if_neg (by omega), getD_set, if_neg (by omega), get_bit_eq_testBit, blockGet_eq]
          have hd : decide (b ≤ i ∧ i < e) = false := by
            simp only [decide_eq_false_iff_not]
            omega
          rw [hd, Bool.or_false]

end bitfield

namespace bitfield

theorem and_window_ne (x p q : Nat) (hpq : p ≤ q) :
    (x &&& ((2 ^ p - 1) ^^^ (2 ^ q - 1)) ≠ 0) ↔ ∃ j, p ≤ j ∧ j < q ∧ x.testBit j = true := by
  constructor
  · intro h
    obtain ⟨j, hj⟩ := Nat.ne_zero_implies_bit_true h
    rw [Nat.testBit_and, mask_xor_testBit _ _ _ hpq, Bool.and_eq_true, decide_eq_true_eq] at hj
    exact ⟨j, hj.2.1, hj.2.2, hj.1⟩
  · rintro ⟨j, h1, h2, h3⟩
    intro h0
    have hc := congrArg (fun v => v.testBit j) h0
    simp only [Nat.testBit_and, mask_xor_testBit _ _ _ hpq, Nat.zero_testBit,
      Bool.and_eq_false_iff] at hc
    rcases hc with hc | hc
    · rw [h3] at hc
      simp at hc
    · rw [decide_eq_false_iff_not] at hc
      exact hc ⟨h1, h2⟩

theorem and_window_eq (x p q : Nat) (hpq : p ≤ q) :
    (x &&& ((2 ^ p - 1) ^^^ (2 ^ q - 1)) = (2 ^ p - 1) ^^^ (2 ^ q - 1))
      ↔ ∀ j, p ≤ j → j < q → x.testBit j = true := by
  constructor
  · intro h j h1 h2
    have hc := congrArg (fun v => v.testBit j) h
    simp only [Nat.testBit_and, mask_xor_testBit _ _ _ hpq] at hc
    have hd : decide (p ≤ j ∧ j < q) = true := by
      simp only [decide_eq_true_eq]
      exact ⟨h1, h2⟩
    rw [hd, Bool.and_true] at hc
    exact hc
  · intro h
    apply Nat.eq_of_testBit_eq
    intro j
    rw [Nat.testBit_and, mask_xor_testBit _ _ _ hpq]
    by_cases hw : p ≤ j ∧ j < q
    · rw [h j hw.1 hw.2]
      simp [hw]
    · simp [hw]

theorem block_ne_zero_iff (x : Nat) (hx : x < 18446744073709551616) :
    x ≠ 0 ↔ ∃ j, j < 64 ∧ x.testBit j = true := by
  constructor
  · intro h
    obtain ⟨j, hj⟩ := Nat.ne_zero_implies_bit_true h
    refine ⟨j, ?_, hj⟩
    have hge := Nat.testBit_implies_ge hj
    by_contra hge64
    have : (2 : Nat) ^ 64 ≤ 2 ^ j := Nat.pow_le_pow_right (by norm_num) (by omega)
    have hlt : x < 2 ^ 64 := by
      have : (18446744073709551616 : Nat) = 2 ^ 64 := by norm_num
      omega
    omega
  · rintro ⟨j, hj, h3⟩
    intro h0
    rw [h0, Nat.zero_testBit] at h3
    simp at h3

theorem block_all_ones_iff (x : Nat) (hx : x < 18446744073709551616) :
    x = 0xFFFFFFFFFFFFFFFF ↔ ∀ j, j < 64 → x.testBit j = true := by
  have hFF : (0xFFFFFFFFFFFFFFFF : Nat) = 2 ^ 64 - 1 := by norm_num
  constructor
  · rintro rfl j hj
    rw [hFF, Nat.testBit_two_pow_sub_one]
    simp [hj]
  · intro h
    apply Nat.eq_of_testBit_eq
    intro j
    rw [hFF, Nat.testBit_two_pow_sub_one]
    by_cases hj : j < 64
    · rw [h j hj]
      simp [hj]
    · have hlt : x < 2 ^ j := by
        have h1 : (2 : Nat) ^ 64 ≤ 2 ^ j := Nat.pow_le_pow_right (by norm_num) (by omega)
        have h2 : (18446744073709551616 : Nat) = 2 ^ 64 := by norm_num
        omega
      rw [Nat.testBit_lt_two_pow hlt]
      simp [hj]

theorem any_bit_set_in_range_iff (f : Bitfield) (b e : Nat) (hbe : b ≤ e) (he : e ≤ f.count)
    (hwf : ∀ k, blockGet f k < 18446744073709551616) :
    any_bit_set_in_range f b e = true ↔ ∃ i, b ≤ i ∧ i < e ∧ get_bit f i = true := by
  have hget : ∀ i : Nat, get_bit f i = (blockGet f (i / 64)).testBit (i % 64) := fun i =>
    get_bit_eq_testBit f i
  rw [any_bit_set_in_range]
  simp only [block_idx_eq, bit_pattern_eq]
  by_cases hsame : b / 64 = e / 64
  · rw [if_pos hsame, bne_iff_ne, and_window_ne _ _ _ (by omega)]
    constructor
    · rintro ⟨j, h1, h2, h3⟩
      have hj64 : j < 64 := by omega
      refine ⟨64 * (b / 64) + j, by omega, by omega, ?_⟩
      rw [hget, show (64 * (b / 64) + j) / 64 = b / 64 by omega,
        show (64 * (b / 64) + j) % 64 = j by omega]
      exact h3
    · rintro ⟨i, h1, h2, h3⟩
      rw [hget] at h3
      have hib : i / 64 = b / 64 := by omega
      refine ⟨i % 64, by omega, by omega, ?_⟩
      rw [← hib]
      exact h3
  · have hlt : b / 64 < e / 64 := by omega
    rw [if_neg hsame]
    have hhead : (blockGet f (b / 64) &&& compl64 (2 ^ (b % 64) - 1) ≠ 0)
        ↔ ∃ j, b % 64 ≤ j ∧ j < 64 ∧ (blockGet f (b / 64)).testBit j = true := by
      rw [compl64, show (0xFFFFFFFFFFFFFFFF : Nat) = 2 ^ 64 - 1 by norm_num]
      exact and_window_ne _ _ _ (by omega)
    by_cases hh : (blockGet f (b / 64) &&& compl64 (2 ^ (b % 64) - 1)) != 0
    · rw [if_pos hh]
      rw [bne_iff_ne] at hh
      obtain ⟨j, h1, h2, h3⟩ := hhead.mp hh
      constructor
      · intro _
        refine ⟨64 * (b / 64) + j, by omega, by omega, ?_⟩
        rw [hget, show (64 * (b / 64) + j) / 64 = b / 64 by omega,
          show (64 * (b / 64) + j) % 64 = j by omega]
        exact h3
      · intro _
        rfl
    · rw [if_neg hh]
      have hh0 : blockGet f (b / 64) &&& compl64 (2 ^ (b % 64) - 1) = 0 := by
        simpa using hh
      by_cases ht : (blockGet f (e / 64) &&& (2 ^ (e % 64) - 1)) != 0
      · rw [if_pos ht]
        rw [bne_iff_ne] at ht
        have htail : ∃ j, j < e % 64 ∧ (blockGet f (e / 64)).testBit j = true := by
          have hw := (and_window_ne (blockGet f (e / 64)) 0 (e % 64) (by omega)).mp
          simp only [pow_zero, Nat.sub_self, Nat.zero_xor] at hw
          obtain ⟨j, _, hj2, hj3⟩ := hw ht
          exact ⟨j, hj2, hj3⟩
        obtain ⟨j, h2, h3⟩ := htail
        constructor
        · intro _
          refine ⟨64 * (e / 64) + j, by omega, by omega, ?_⟩
          rw [hget, show (64 * (e / 64) + j) / 64 = e / 64 by omega,
            show (64 * (e / 64) + j) % 64 = j by omega]
          exact h3
        · intro _
          rfl
      · rw [if_neg ht]
        have ht0 : blockGet f (e / 64) &&& (2 ^ (e % 64) - 1) = 0 := by
          simpa using ht
        rw [List.any_eq_true]
        constructor
        · rintro ⟨k, hkmem, hk⟩
          rw [List.mem_range'] at hkmem
          obtain ⟨t, htt, rfl⟩ := hkmem
          rw [bne_iff_ne] at hk
          obtain ⟨j, hj, hjb⟩ := (block_ne_zero_iff _ (hwf _)).mp hk
          refine ⟨64 * (b / 64 + 1 + 1 * t) + j, by omega, by omega, ?_⟩
          rw [hget, show (64 * (b / 64 + 1 + 1 * t) + j) / 64 = b / 64 + 1 + 1 * t by omega,
            show (64 * (b / 64 + 1 + 1 * t) + j) % 64 = j by omega]
          exact hjb
        · rintro ⟨i, h1, h2, h3⟩
          rw [hget] at h3
          have hk1 : b / 64 ≤ i / 64 := by omega
          have hk2 : i / 64 ≤ e / 64 := by omega
          by_cases hc1 : i / 64 = b / 64
          · exfalso
            have : blockGet f (b / 64) &&& compl64 (2 ^ (b % 64) - 1) ≠ 0 := by
              apply hhead.mpr
              exact ⟨i % 64, by omega, by omega, by rw [← hc1]; exact h3⟩
            exact this hh0
          · by_cases hc2 : i / 64 = e / 64
            · exfalso
              have : blockGet f (e / 64) &&& (2 ^ (e % 64) - 1) ≠ 0 := by
                have hw := (and_window_ne (blockGet f (e / 64)) 0 (e % 64) (by omega)).mpr
                simp only [pow_zero, Nat.sub_self, Nat.zero_xor] at hw
                exact hw ⟨i % 64, by omega, by omega, by rw [← hc2]; exact h3⟩
              exact this ht0
            · refine ⟨i / 64, ?_, ?_⟩
              · rw [List.mem_range']
                exact ⟨i / 64 - (b / 64 + 1), by omega, by omega⟩
              · rw [bne_iff_ne]
                intro h0
                rw [h0, Nat.zero_testBit] at h3
                simp at h3

end bitfield

namespace bitfield

theorem all_bits_set_in_range_iff (f : Bitfield) (b e : Nat) (hbe : b ≤ e) (he : e ≤ f.count)
    (hwf : ∀ k, blockGet f k < 18446744073709551616) :
    all_bits_set_in_range f b e = true ↔ ∀ i, b ≤ i → i < e → get_bit f i = true := by
  have hget : ∀ i : Nat, get_bit f i = (blockGet f (i / 64)).testBit (i % 64) := fun i =>
    get_bit_eq_testBit f i
  have htailw : ∀ x q : Nat, (x &&& (2 ^ q - 1) = 2 ^ q - 1)
      ↔ ∀ j, j < q → x.testBit j = true := by
    intro x q
    have hw := and_window_eq x 0 q (by omega)
    simp only [pow_zero, Nat.sub_self, Nat.zero_xor] at hw
    rw [hw]
    constructor
    · intro h j hj
      exact h j (by omega) hj
    · intro h j _ hj
      exact h j hj
  rw [all_bits_set_in_range]
  simp only [block_idx_eq, bit_pattern_eq]
  by_cases hsame : b / 64 = e / 64
  · rw [if_pos hsame, beq_iff_eq, and_window_eq _ _ _ (by omega)]
    constructor
    · intro h i h1 h2
      have hib : i / 64 = b / 64 := by omega
      rw [hget, hib]
      exact h (i % 64) (by omega) (by omega)
    · intro h j h1 h2
      have hj64 : j < 64 := by omega
      have := h (64 * (b / 64) + j) (by omega) (by omega)
      rw [hget, show (64 * (b / 64) + j) / 64 = b / 64 by omega,
        show (64 * (b / 64) + j) % 64 = j by omega] at this
      exact this
  · have hlt : b / 64 < e / 64 := by omega
    have hheadw : (blockGet f (b / 64) &&& compl64 (2 ^ (b % 64) - 1) = compl64 (2 ^ (b % 64) - 1))
        ↔ ∀ j, b % 64 ≤ j → j < 64 → (blockGet f (b / 64)).testBit j = true := by
      rw [compl64, show (0xFFFFFFFFFFFFFFFF : Nat) = 2 ^ 64 - 1 by norm_num]
      exact and_window_eq _ _ _ (by omega)
    rw [if_neg hsame]
    by_cases hh : (blockGet f (b / 64) &&& compl64 (2 ^ (b % 64) - 1)) != compl64 (2 ^ (b % 64) - 1)
    · rw [if_pos hh, bne_iff_ne] at *
      constructor
      · intro h
        simp at h
      · intro hall
        exfalso
        apply hh
        apply hheadw.mpr
        intro j h1 h2
        have := hall (64 * (b / 64) + j) (by omega) (by omega)
        rw [hget, show (64 * (b / 64) + j) / 64 = b / 64 by omega,
          show (64 * (b / 64) + j) % 64 = j by omega] at this
        exact this
    · rw [if_neg hh]
      have hh0 : blockGet f (b / 64) &&& compl64 (2 ^ (b % 64) - 1) = compl64 (2 ^ (b % 64) - 1) := by
        simpa using hh
      by_cases ht : (blockGet f (e / 64) &&& (2 ^ (e % 64) - 1)) != (2 ^ (e % 64) - 1)
      · rw [if_pos ht, bne_iff_ne] at *
        constructor
        · intro h
          simp at h
        · intro hall
          exfalso
          apply ht
          apply (htailw _ _).mpr
          intro j hj
          have := hall (64 * (e / 64) + j) (by omega) (by omega)
          rw [hget, show (64 * (e / 64) + j) / 64 = e / 64 by omega,
            show (64 * (e / 64) + j) % 64 = j by omega] at this
          exact this
      · rw [if_neg ht]
        have ht0 : blockGet f (e / 64) &&& (2 ^ (e % 64) - 1) = 2 ^ (e % 64) - 1 := by
          simpa using ht
        rw [List.all_eq_true]
        constructor
        · intro hblocks i h1 h2
          rw [hget]
          by_cases hc1 : i / 64 = b / 64
          · rw [hc1]
            exact hheadw.mp hh0 (i % 64) (by omega) (by omega)
          · by_cases hc2 : i / 64 = e / 64
            · rw [hc2]
              exact (htailw _ _).mp ht0 (i % 64) (by omega)
            · have hk1 : b / 64 + 1 ≤ i / 64 := by omega
              have hk2 : i / 64 < e / 64 := by omega
              have hmem : i / 64 ∈ List.range' (b / 64 + 1) (e / 64 - b / 64 - 1) := by
                rw [List.mem_range']
                exact ⟨i / 64 - (b / 64 + 1), by omega, by omega⟩
              have hbeq := hblocks _ hmem
              rw [beq_iff_eq] at hbeq
              exact (block_all_ones_iff _ (hwf _)).mp hbeq (i % 64) (by omega)
        · intro hall k hkmem
          rw [List.mem_range'] at hkmem
          obtain ⟨t, htt, rfl⟩ := hkmem
          rw [beq_iff_eq]
          apply (block_all_ones_iff _ (hwf _)).mpr
          intro j hj
          have := hall (64 * (b / 64 + 1 + 1 * t) + j) (by omega) (by omega)
          rw [hget, show (64 * (b / 64 + 1 + 1 * t) + j) / 64 = b / 64 + 1 + 1 * t by omega,
            show (64 * (b / 64 + 1 + 1 * t) + j) % 64 = j by omega] at this
          exact this

end bitfield

namespace bitfield

theorem ite_lt_of (c : Prop) [Decidable c] (x y L : Nat) (hx : x < L) (hy : y < L) :
    (if c then x else y) < L := by
  by_cases h : c
  · rwa [if_pos h]
  · rwa [if_neg h]

theorem bit_pattern_sub_one_lt (i : Nat) : detail.bit_pattern i - 1 < 18446744073709551616 := by
  rw [bit_pattern_eq]
  have h1 : i % 64 < 64 := Nat.mod_lt _ (by norm_num)
  have h2 : (2 : Nat) ^ (i % 64) ≤ 2 ^ 64 := Nat.pow_le_pow_right (by norm_num) (by omega)
  have h3 : (2 : Nat) ^ 64 = 18446744073709551616 := by norm_num
  omega

theorem set_range_count (f : Bitfield) (b e : Nat) : (set_range f b e).count = f.count := by
  rw [set_range]
  by_cases hsame : detail.block_idx b = detail.block_idx e
  · rw [if_pos hsame]
    rfl
  · rw [if_neg hsame]
    rfl

theorem mapBlocks_blocks_some (f : Bitfield) (g : List Nat → List Nat) (bl : List Nat)
    (h : f.ptr = some bl) : (f.mapBlocks g).blocks = g bl := by
  rw [Bitfield.mapBlocks, Bitfield.blocks, h]
  rfl

theorem blocks_of_ptr_some (f : Bitfield) (bl : List Nat) (h : f.ptr = some bl) :
    f.blocks = bl := by
  rw [Bitfield.blocks, h]
  rfl

theorem set_range_wf (f : Bitfield) (b e : Nat)
    (hwf : ∀ k, blockGet f k < 18446744073709551616) :
    ∀ k, blockGet (set_range f b e) k < 18446744073709551616 := by
  intro k
  have hm1 := bit_pattern_sub_one_lt b
  have hm2 := bit_pattern_sub_one_lt e
  have hco : compl64 (detail.bit_pattern b - 1) < 18446744073709551616 :=
    compl64_lt _ hm1
  have hx : ((detail.bit_pattern b - 1) ^^^ (detail.bit_pattern e - 1))
      < 18446744073709551616 := by
    have := Nat.xor_lt_two_pow (n := 64)
      (by simpa using hm1) (by simpa using hm2)
    simpa using this
  have hall : (0xFFFFFFFFFFFFFFFF : Nat) < 18446744073709551616 := by norm_num
  rcases hp : f.ptr with _ | bl
  · have hb : (set_range f b e).blocks = [] := by
      rw [set_range]
      by_cases hsame : detail.block_idx b = detail.block_idx e
      · rw [if_pos hsame, Bitfield.mapBlocks, Bitfield.blocks, hp]
        rfl
      · rw [if_neg hsame, Bitfield.mapBlocks, Bitfield.blocks, hp]
        rfl
    rw [blockGet_eq, hb]
    simp [List.getD]
  · have hfb : f.blocks = bl := blocks_of_ptr_some f bl hp
    have hor : ∀ m v : Nat, v < 18446744073709551616 → blockGet f m ||| v < 18446744073709551616 := by
      intro m v hv
      have := Nat.or_lt_two_pow (n := 64) (by simpa using hwf m) (by simpa using hv)
      simpa using this
    rw [set_range]
    by_cases hsame : detail.block_idx b = detail.block_idx e
    · rw [if_pos hsame, blockGet_eq, mapBlocks_blocks_some f _ bl hp, getD_set]
      apply ite_lt_of
      · rw [← hfb, ← blockGet_eq]
        exact hor _ _ hx
      · rw [← hfb, ← blockGet_eq]
        exact hwf k
    · have hgen : ∀ z v : Nat, z < 18446744073709551616 → v < 18446744073709551616 →
          z ||| v < 18446744073709551616 := fun z v hz hv => by
        have := Nat.or_lt_two_pow (n := 64) (by simpa using hz) (by simpa using hv)
        simpa using this
      have hv1 : ∀ j : Nat, (bl.set (detail.block_idx b)
            (bl.getD (detail.block_idx b) 0 ||| compl64 (detail.bit_pattern b - 1))).getD j 0
          < 18446744073709551616 := by
        intro j
        rw [getD_set]
        apply ite_lt_of
        · rw [← hfb, ← blockGet_eq]
          exact hor _ _ hco
        · rw [← hfb, ← blockGet_eq]
          exact hwf j
      rw [if_neg hsame, blockGet_eq, mapBlocks_blocks_some f _ bl hp, memset_blocks_getD]
      apply ite_lt_of
      · exact hall
      · rw [getD_set]
        apply ite_lt_of
        · exact hgen _ _ (hv1 _) hm2
        · exact hv1 _

end bitfield

namespace bitfield

theorem extract_outer_eq {α : Type} (d : Nat → α) (f : Bitfield) : ∀ fuel k,
    detail.num_blocks f ≤ fuel + k →
    extract_outer d f fuel k
      = ((List.range' (64 * k) (f.count - 64 * k)).filter (fun i => get_bit f i)).map d := by
  intro fuel
  induction fuel with
  | zero =>
    intro k hk
    rw [num_blocks_eq] at hk
    have hc : f.count - 64 * k = 0 := by omega
    rw [hc]
    simp [extract_outer]
  | succ fuel ih =>
    intro k hk
    by_cases h1 : 64 * k < f.count
    · rw [show extract_outer d f (fuel + 1) k
          = if 64 * k < f.count then
              (if blockGet f k != 0 then extract_inner d f (64 * k)
                else extract_outer d f fuel (k + 1))
            else [] from rfl, if_pos h1]
      by_cases h2 : blockGet f k != 0
      · rw [if_pos h2]
        rfl
      · rw [if_neg h2]
        have hz : blockGet f k = 0 := by simpa using h2
        have hfalse : ∀ i, 64 * k ≤ i → i < 64 * k + 64 → get_bit f i = false := by
          intro i hi1 hi2
          rw [get_bit_eq_testBit, show i / 64 = k by omega, hz, Nat.zero_testBit]
        rw [ih (k + 1) (by omega)]
        by_cases hend : f.count ≤ 64 * k + 64
        · have h0 : f.count - 64 * (k + 1) = 0 := by omega
          rw [h0]
          have hnil : (List.range' (64 * k) (f.count - 64 * k)).filter
              (fun i => get_bit f i) = [] := by
            rw [List.filter_eq_nil_iff]
            intro a ha
            rw [List.mem_range'] at ha
            obtain ⟨t, ht, rfl⟩ := ha
            simp only [Bool.not_eq_true]
            exact hfalse _ (by omega) (by omega)
          rw [hnil]
          rfl
        · have hsplit : f.count - 64 * k = (f.count - 64 * (k + 1)) + 64 := by omega
          rw [hsplit, ← List.range'_append_1 (64 * k) 64 (f.count - 64 * (k + 1)),
            List.filter_append, List.map_append]
          have hnil : (List.range' (64 * k) 64).filter (fun i => get_bit f i) = [] := by
            rw [List.filter_eq_nil_iff]
            intro a ha
            rw [List.mem_range'] at ha
            obtain ⟨t, ht, rfl⟩ := ha
            simp only [Bool.not_eq_true]
            exact hfalse _ (by omega) (by omega)
          rw [hnil, show 64 * k + 64 = 64 * (k + 1) by ring]
          rfl
    · rw [show extract_outer d f (fuel + 1) k
          = if 64 * k < f.count then
              (if blockGet f k != 0 then extract_inner d f (64 * k)
                else extract_outer d f fuel (k + 1))
            else [] from rfl, if_neg h1]
      have hc : f.count - 64 * k = 0 := by omega
      rw [hc]
      rfl

theorem extract_data_from_mask_eq {α : Type} (d : Nat → α) (f : Bitfield) :
    extract_data_from_mask d f
      = ((List.range f.count).filter (fun i => get_bit f i)).map d := by
  rw [extract_data_from_mask, extract_outer_eq d f _ 0 (by omega), List.range_eq_range']
  norm_num

end bitfield

namespace bitfield

theorem init_count (c : Nat) (g : Nat → Nat) : (init c g).count = c := rfl

theorem alloc_blocks_length (bytes : Nat) (g : Nat → Nat) :
    (alloc_blocks bytes g).length = (bytes + 8 - 1) / 8 := by
  rw [alloc_blocks, List.length_map, List.length_range]

theorem memset_zero_bytes_length (bl : List Nat) (n : Nat) :
    (memset_zero_bytes bl n).length = bl.length := by
  rw [memset_zero_bytes, List.length_mapIdx]

theorem init_blocks_length (c : Nat) (g : Nat → Nat) :
    (init c g).blocks.length = detail.num_blocks (init c g) := by
  have hb : (init c g).blocks
      = memset_zero_bytes (alloc_blocks ((c + 8 - 1) / 8) g) ((c + 8 - 1) / 8) := rfl
  rw [hb, memset_zero_bytes_length, alloc_blocks_length, num_blocks_eq, init_count]
  omega

theorem init_getD (c : Nat) (g : Nat → Nat) (k : Nat) (hk : k < ((c + 8 - 1) / 8 + 8 - 1) / 8) :
    (init c g).blocks.getD k 0
      = ((g k % 18446744073709551616) >>> min 64 (8 * ((c + 8 - 1) / 8 - 8 * k)))
          <<< min 64 (8 * ((c + 8 - 1) / 8 - 8 * k)) := by
  have hb : (init c g).blocks
      = memset_zero_bytes (alloc_blocks ((c + 8 - 1) / 8) g) ((c + 8 - 1) / 8) := rfl
  rw [hb, memset_zero_bytes, alloc_blocks, List.getD_eq_getElem?_getD, List.getElem?_mapIdx,
    List.getElem?_map, List.getElem?_range (by simpa using hk)]
  rfl

theorem init_get_bit (c : Nat) (g : Nat → Nat) (i : Nat) (hi : i < c) :
    get_bit (init c g) i = false := by
  have hk : i / 64 < ((c + 8 - 1) / 8 + 8 - 1) / 8 := by omega
  rw [get_bit_eq_testBit, blockGet_eq, init_getD c g (i / 64) hk, Nat.testBit_shiftLeft]
  have hlt : i % 64 < min 64 (8 * ((c + 8 - 1) / 8 - 8 * (i / 64))) := by omega
  simp only [ge_iff_le, Bool.and_eq_false_iff, decide_eq_false_iff_not, Nat.not_le]
  left
  exact hlt

theorem invert_all_length (f : Bitfield) :
    (invert_all f).blocks.length = f.blocks.length := by
  rcases hp : f.ptr with _ | bl
  · rw [invert_all, Bitfield.mapBlocks, Bitfield.blocks, hp, Bitfield.blocks, hp]
    rfl
  · rw [invert_all, mapBlocks_blocks_some f _ bl hp, blocks_of_ptr_some f bl hp,
      foldl_set_length (fun i => i) (fun acc i => compl64 (acc.getD i 0))]

theorem combine_blocks_length (dst a b : Bitfield) (op : Nat → Nat → Nat) :
    (combine_blocks dst a b op).blocks.length = dst.blocks.length := by
  rcases hp : dst.ptr with _ | bl
  · rw [combine_blocks, Bitfield.mapBlocks, Bitfield.blocks, hp, Bitfield.blocks, hp]
    rfl
  · rw [combine_blocks, mapBlocks_blocks_some dst _ bl hp, blocks_of_ptr_some dst bl hp,
      foldl_set_length (fun i => i) (fun acc i => op (blockGet a i) (blockGet b i))]

end bitfield

/-! The claims. -/

namespace bitfield

/-- C1: the claim says find_next_bit_set(b, offset) returns the lowest set-bit
index at or after offset (or none).  The code violates this: when the search
starts in any block other than block 0, the first-block hit returns the raw
bit-scan result without adding the block base.  On the bitset with bit_count
192 whose only set bit is 100 (block 1, bit 36), find_next_bit_set(b, 70)
returns 36 - an index whose bit is not even set - instead of 100.  This
theorem evaluates the embedded code at that failing input. -/
theorem c1_find_next_bit_set_bug :
    find_next_bit_set ⟨some [0, 68719476736, 0], 192⟩ 70 = 36
      ∧ get_bit ⟨some [0, 68719476736, 0], 192⟩ 36 = false
      ∧ get_bit ⟨some [0, 68719476736, 0], 192⟩ 100 = true
      ∧ (List.range 192).filter (fun i => get_bit ⟨some [0, 68719476736, 0], 192⟩ i)
          = [100] := by
  decide

/-- C2: number_of_bits_set(b) equals the number of indices i in
[0, bit_count) with get_bit(b, i) true, for every bitset (any bit_count,
any storage contents, so in particular any don't-care tail padding): the
final partial uint32 chunk is masked to the valid bit_count % 32 bits, so
padding never contributes. -/
theorem c2_number_of_bits_set_exact (f : Bitfield) :
    number_of_bits_set f = (List.range f.count).countP (fun i => get_bit f i) :=
  number_of_bits_set_eq_countP f

/-- C3: for 0 <= beg <= end <= bit_count (on well-formed storage: at least
num_blocks words, each word a 64-bit value): after set_range(b, beg, end)
all_bits_set_in_range(b, beg, end) is true and every bit outside
[beg, end) is unchanged; and at any state any_bit_set_in_range(b, beg, end)
is true iff some bit in [beg, end) is set. -/
theorem c3_range_ops (f : Bitfield) (b e : Nat) (hbe : b ≤ e) (he : e ≤ f.count)
    (hlen : detail.num_blocks f ≤ f.blocks.length)
    (hwf : ∀ k, blockGet f k < 18446744073709551616) :
    all_bits_set_in_range (set_range f b e) b e = true
      ∧ (∀ j, j < f.count → j < b ∨ e ≤ j → get_bit (set_range f b e) j = get_bit f j)
      ∧ (any_bit_set_in_range f b e = true ↔ ∃ i, b ≤ i ∧ i < e ∧ get_bit f i = true) := by
  refine ⟨?_, ?_, ?_⟩
  · apply (all_bits_set_in_range_iff (set_range f b e) b e hbe
      (by rw [set_range_count]; exact he) (set_range_wf f b e hwf)).mpr
    intro i h1 h2
    rw [get_bit_set_range f b e i hbe he (by omega) hlen]
    have hd : decide (b ≤ i ∧ i < e) = true := by
      simp only [decide_eq_true_eq]
      exact ⟨h1, h2⟩
    rw [hd, Bool.or_true]
  · intro j hj hout
    rw [get_bit_set_range f b e j hbe he hj hlen]
    have hd : decide (b ≤ j ∧ j < e) = false := by
      simp only [decide_eq_false_iff_not]
      omega
    rw [hd, Bool.or_false]
  · exact any_bit_set_in_range_iff f b e hbe he hwf

theorem c3_range_ops_witness :
    ((2 : Nat) ≤ 5 ∧ (5 : Nat) ≤ (⟨some [0], 10⟩ : Bitfield).count
        ∧ detail.num_blocks (⟨some [0], 10⟩ : Bitfield)
            ≤ (⟨some [0], 10⟩ : Bitfield).blocks.length)
      ∧ (all_bits_set_in_range (set_range ⟨some [0], 10⟩ 2 5) 2 5 = true
          ∧ (∀ j, j < (⟨some [0], 10⟩ : Bitfield).count → j < 2 ∨ 5 ≤ j →
              get_bit (set_range ⟨some [0], 10⟩ 2 5) j = get_bit ⟨some [0], 10⟩ j)
          ∧ (any_bit_set_in_range ⟨some [0], 10⟩ 2 5 = true
              ↔ ∃ i, 2 ≤ i ∧ i < 5 ∧ get_bit ⟨some [0], 10⟩ i = true)) := by
  refine ⟨by decide, c3_range_ops ⟨some [0], 10⟩ 2 5 (by decide) (by decide) (by decide) ?_⟩
  intro k
  match k with
  | 0 => decide
  | n + 1 =>
    show ([0] : List Nat).getD (n + 1) 0 < 18446744073709551616
    simp [List.getD]

/-- C4: init(field, count) records count, and the allocation (modelled from
the spec, since ALIGNED_MALLOC lives in core/common.h outside src) holds
exactly block_count = ceil(ceil(count/8)/8) whole 64-bit words with every
logical bit zero after the memset, so invariant I1 holds and the
block-iterating operations (invert_all, the field combinators) touch only
word indices below the storage length. -/
theorem c4_init_invariant (c : Nat) (g : Nat → Nat) :
    (init c g).count = c
      ∧ (init c g).blocks.length = detail.num_blocks (init c g)
      ∧ detail.num_blocks (init c g) = ((c + 8 - 1) / 8 + 8 - 1) / 8
      ∧ detail.num_blocks (init c g) ≤ (init c g).blocks.length
      ∧ (∀ i, i < c → get_bit (init c g) i = false)
      ∧ (invert_all (init c g)).blocks.length = (init c g).blocks.length
      ∧ (∀ a b : Bitfield, ∀ op : Nat → Nat → Nat,
          (combine_blocks (init c g) a b op).blocks.length = (init c g).blocks.length) := by
  refine ⟨rfl, init_blocks_length c g, rfl, le_of_eq (init_blocks_length c g).symm,
    fun i hi => init_get_bit c g i hi, invert_all_length _,
    fun a b op => combine_blocks_length _ a b op⟩

theorem c4_init_invariant_witness :
    (3 : Nat) < 10 ∧ get_bit (init 10 (fun _ => 255)) 3 = false :=
  ⟨by decide, (c4_init_invariant 10 (fun _ => 255)).2.2.2.2.1 3 (by decide)⟩

/-- C5: extract_data_from_mask returns exactly the data elements at the
set-bit indices of the mask, in ascending index order, and the number of
elements written equals number_of_bits_set(mask). -/
theorem c5_extract_masked (α : Type) (d : Nat → α) (m : Bitfield) :
    extract_data_from_mask d m = ((List.range m.count).filter (fun i => get_bit m i)).map d
      ∧ (extract_data_from_mask d m).length = number_of_bits_set m := by
  refine ⟨extract_data_from_mask_eq d m, ?_⟩
  rw [extract_data_from_mask_eq, List.length_map, ← List.countP_eq_length_filter,
    number_of_bits_set_eq_countP]

/-- C6: the claim says any_bit_set(b) is true iff some bit in
[0, bit_count) is set.  The code violates this: its loop scans only word
indices below end_blk_idx - 1 and then checks the masked word at
end_blk_idx, skipping word end_blk_idx - 1 entirely.  With bit_count 100
and only bit 5 set (word 0), any_bit_set returns false.  This theorem
evaluates the embedded code at that failing input. -/
theorem c6_any_bit_set_bug :
    any_bit_set ⟨some [32, 0], 100⟩ = false
      ∧ get_bit ⟨some [32, 0], 100⟩ 5 = true
      ∧ 5 < (⟨some [32, 0], 100⟩ : Bitfield).count := by
  decide

/-- C7: each whole-field combinator computes the pointwise boolean
operation over every logical bit (with equal bit_counts, the asserted
precondition), and in particular the and_field example with bits
{0,2,4} and {2,3,4} over bit_count 5 yields exactly {2,4}. -/
theorem c7_field_combinators (dst a b : Bitfield)
    (ha : a.count = dst.count) (hb : b.count = dst.count)
    (hlen : detail.num_blocks dst ≤ dst.blocks.length) :
    (∀ i, i < dst.count →
        get_bit (and_field dst a b) i = (get_bit a i && get_bit b i)
        ∧ get_bit (and_not_field dst a b) i = (get_bit a i && !get_bit b i)
        ∧ get_bit (or_field dst a b) i = (get_bit a i || get_bit b i)
        ∧ get_bit (or_not_field dst a b) i = (get_bit a i || !get_bit b i)
        ∧ get_bit (xor_field dst a b) i = (get_bit a i != get_bit b i))
      ∧ (List.range 5).map (get_bit (and_field ⟨some [0], 5⟩ ⟨some [21], 5⟩ ⟨some [28], 5⟩))
          = [false, false, true, false, true] := by
  constructor
  · intro i hi
    have hm : i % 64 < 64 := Nat.mod_lt _ (by norm_num)
    refine ⟨?_, ?_, ?_, ?_, ?_⟩
    · rw [and_field, get_bit_combine dst a b _ i hi hlen, Nat.testBit_and,
        get_bit_eq_testBit, get_bit_eq_testBit]
    · rw [and_not_field, get_bit_combine dst a b _ i hi hlen, Nat.testBit_and,
        compl64_testBit _ _ hm, get_bit_eq_testBit, get_bit_eq_testBit]
    · rw [or_field, get_bit_combine dst a b _ i hi hlen, Nat.testBit_or,
        get_bit_eq_testBit, get_bit_eq_testBit]
    · rw [or_not_field, get_bit_combine dst a b _ i hi hlen, Nat.testBit_or,
        compl64_testBit _ _ hm, get_bit_eq_testBit, get_bit_eq_testBit]
    · rw [xor_field, get_bit_combine dst a b _ i hi hlen, Nat.testBit_xor,
        get_bit_eq_testBit, get_bit_eq_testBit]
  · decide

theorem c7_field_combinators_witness :
    ((⟨some [21], 5⟩ : Bitfield).count = (⟨some [0], 5⟩ : Bitfield).count
        ∧ (⟨some [28], 5⟩ : Bitfield).count = (⟨some [0], 5⟩ : Bitfield).count
        ∧ detail.num_blocks (⟨some [0], 5⟩ : Bitfield)
            ≤ (⟨some [0], 5⟩ : Bitfield).blocks.length)
      ∧ (2 < (⟨some [0], 5⟩ : Bitfield).count
          ∧ get_bit (and_field ⟨some [0], 5⟩ ⟨some [21], 5⟩ ⟨some [28], 5⟩) 2
              = (get_bit (⟨some [21], 5⟩ : Bitfield) 2 && get_bit (⟨some [28], 5⟩ : Bitfield) 2)) :=
  ⟨⟨rfl, rfl, by decide⟩,
    ⟨by decide,
      ((c7_field_combinators ⟨some [0], 5⟩ ⟨some [21], 5⟩ ⟨some [28], 5⟩ rfl rfl
        (by decide)).1 2 (by decide)).1⟩⟩

/-- C8: the claim says a default-constructed bitset is falsy, its empty()
predicate is true, and free is a safe idempotent no-op on it.  The code
violates the empty() part: Bitfield::empty() returns count > 0, which is
false on the default bitset (count = 0); the falsy conversion and the
free behaviour do hold.  This theorem evaluates the code on the default
bitset and proves the remaining parts. -/
theorem c8_empty_default_bug :
    Bitfield.empty ⟨none, 0⟩ = false
      ∧ Bitfield.toBool ⟨none, 0⟩ = false
      ∧ free ⟨none, 0⟩ = ⟨none, 0⟩
      ∧ (∀ b : Bitfield, free (free b) = free b) := by
  refine ⟨rfl, rfl, rfl, ?_⟩
  intro b
  rcases b with ⟨_ | bl, cnt⟩ <;> rfl

/-- C9: for a bit index in range on well-formed storage, set_bit makes
get_bit true and clear_bit makes get_bit false. -/
theorem c9_set_clear_roundtrip (f : Bitfield) (i : Nat) (hi : i < f.count)
    (hlen : detail.num_blocks f ≤ f.blocks.length) :
    get_bit (set_bit f i) i = true ∧ get_bit (clear_bit f i) i = false :=
  ⟨get_bit_set_bit f i hi hlen, get_bit_clear_bit f i hi hlen⟩

theorem c9_set_clear_roundtrip_witness :
    ((3 : Nat) < (⟨some [0], 10⟩ : Bitfield).count
        ∧ detail.num_blocks (⟨some [0], 10⟩ : Bitfield)
            ≤ (⟨some [0], 10⟩ : Bitfield).blocks.length)
      ∧ (get_bit (set_bit ⟨some [0], 10⟩ 3) 3 = true
          ∧ get_bit (clear_bit ⟨some [0], 10⟩ 3) 3 = false) :=
  ⟨by decide, c9_set_clear_roundtrip ⟨some [0], 10⟩ 3 (by decide) (by decide)⟩

/-- C10: invert_bit(b, idx) flips bit idx, and its returned bool is the
truth value of the whole updated 64-bit word (nonzero after the flip),
not the new value of bit idx; on the word with bits 0 and 1 set,
inverting bit 0 returns true while get_bit afterwards is false. -/
theorem c10_invert_bit_semantics :
    (∀ f : Bitfield, ∀ i, i < f.count → detail.num_blocks f ≤ f.blocks.length →
        get_bit ((invert_bit f i).1) i = !(get_bit f i)
        ∧ (invert_bit f i).2 = (((invert_bit f i).1).blocks.getD (i / 64) 0 != 0))
      ∧ ((invert_bit ⟨some [3], 64⟩ 0).2 = true
          ∧ get_bit ((invert_bit ⟨some [3], 64⟩ 0).1) 0 = false) := by
  refine ⟨fun f i hi hlen => ⟨invert_bit_flips f i hi hlen, invert_bit_snd f i hi hlen⟩, ?_⟩
  constructor <;> decide

theorem c10_invert_bit_semantics_witness :
    ((0 : Nat) < (⟨some [3], 64⟩ : Bitfield).count
        ∧ detail.num_blocks (⟨some [3], 64⟩ : Bitfield)
            ≤ (⟨some [3], 64⟩ : Bitfield).blocks.length)
      ∧ (get_bit ((invert_bit ⟨some [3], 64⟩ 0).1) 0 = !(get_bit ⟨some [3], 64⟩ 0)
          ∧ (invert_bit ⟨some [3], 64⟩ 0).2
              = (((invert_bit ⟨some [3], 64⟩ 0).1).blocks.getD (0 / 64) 0 != 0)) :=
  ⟨by decide, c10_invert_bit_semantics.1 ⟨some [3], 64⟩ 0 (by decide) (by decide)⟩

end bitfield
